import Mathlib

/-!
# Verification of the `icd` package's tree engine (`icd/base.py`, `icd/rev10cm.py`)

This file gives a shallow embedding of the ICD codex tree engine:

* `Cls` models the Python class of an entry (`ICDEntry`, `ICDRoot`, `ICDChapter`,
  `ICDBlock`, `ICDCategory` and their `rev10cm` subclasses); the `_kind` class
  attribute is recovered by `Cls.kindStr`.
* `ETree` is a value-level view of a (sub)tree used for the read-only traversals
  `search`, `exists` and `get`; the Python `self.depth` walk up the parent chain
  is replaced by an explicit depth argument, with `depth = 1` at a tree's root.
* `Heap` is an identity-preserving view (an association list from integer ids to
  entry records) used for the mutating methods `add_child` / `remove_child`,
  `__init__`, and the upward accessors `root` / `release`, which all depend on
  object identity and parent pointers.

Fallible operations return `Option`: for the fueled mutators `none` covers both
fuel exhaustion and an exception raised by the source (`ValueError` from
`ICD10CMBlock.end_code`); for `kindProp`, `rootProp` and `releaseProp` dedicated
result values model the `AttributeError` outcomes.
-/

namespace ICD

/-- The Python class of an entry: the base classes of `icd/base.py` plus the
`rev10cm` subclasses (`cmRoot` is `ICD10CMRoot`, etc.); `entry` is a bare
`ICDEntry`, whose `_kind` class attribute is `None`. -/
inductive Cls where
  | entry
  | root
  | chapter
  | block
  | category
  | cmRoot
  | cmChapter
  | cmBlock
  | cmCategory
  deriving DecidableEq, Repr

/-- `issubclass(type(e), ICDRoot)`. -/
def Cls.isRootCls : Cls → Bool
  | .root => true
  | .cmRoot => true
  | _ => false

/-- `isinstance(e, ICDBlock)`. -/
def Cls.isBlockCls : Cls → Bool
  | .block => true
  | .cmBlock => true
  | _ => false

/-- The `_kind` class attribute: `None` on a bare `ICDEntry`, otherwise the
string set by the concrete class. -/
def Cls.kindStr : Cls → Option String
  | .entry => none
  | .root => some "root"
  | .cmRoot => some "root"
  | .chapter => some "chapter"
  | .cmChapter => some "chapter"
  | .block => some "block"
  | .cmBlock => some "block"
  | .category => some "category"
  | .cmCategory => some "category"

/-- Contiguous-substring test on character lists, modelling Python's
`needle in hay` for strings. -/
def isSegOf (needle : List Char) : List Char → Bool
  | [] => needle.isEmpty
  | c :: rest => needle.isPrefixOf (c :: rest) || isSegOf needle rest

/-- `ICDEntry.code_matches`: the query matches if it is a substring of the
entry's code or of the entry's code with all dots removed. -/
def codeMatchesStr (selfCode q : String) : Bool :=
  isSegOf q.toList selfCode.toList
    || isSegOf q.toList (selfCode.toList.filter (fun c => c ≠ '.'))

/-- Python's `<` on strings: lexicographic comparison by code point. -/
def lexLt : List Char → List Char → Bool
  | [], [] => false
  | [], _ :: _ => true
  | _ :: _, [] => false
  | a :: as1, b :: bs =>
    if a < b then true else if b < a then false else lexLt as1 bs

/-- Python's `str.split("-")` (the separator in the source is the single
character `"-"`, so splitting the character list on `'-'` is equivalent). -/
def splitOnDash : List Char → List (List Char)
  | [] => [[]]
  | c :: rest =>
    let r := splitOnDash rest
    if c = '-' then [] :: r
    else
      match r with
      | [] => [[c]]
      | h :: t => (c :: h) :: t

/-- `ICD10CMBlock.start_code`: everything before the first dash
(`code.split("-", maxsplit=1)[0]`). -/
def startCode (code : String) : String :=
  match splitOnDash code.toList with
  | [] => code
  | s :: _ => String.mk s

/-- `ICD10CMBlock.end_code`: the part after the dash; `none` models the
`ValueError` raised when the code has more than one dash. -/
def endCode (code : String) : Option String :=
  match splitOnDash code.toList with
  | [s] => some (String.mk s)
  | [_, e] => some (String.mk e)
  | _ => none

/-- A value-level view of an ICD (sub)tree: the node's class, its `code`, and
its children in order. Titles play no role in the traversals and are omitted
here (the heap model below keeps them). -/
inductive ETree where
  | node (cls : Cls) (code : String) (children : List ETree)

mutual

def ETree.beq : ETree → ETree → Bool
  | .node c1 s1 l1, .node c2 s2 l2 => c1 == c2 && s1 == s2 && ETree.beqList l1 l2

def ETree.beqList : List ETree → List ETree → Bool
  | [], [] => true
  | a :: as1, b :: bs => ETree.beq a b && ETree.beqList as1 bs
  | _, _ => false

end

mutual

theorem ETree.eq_of_beq : ∀ a b : ETree, ETree.beq a b = true → a = b
  | .node c1 s1 l1, .node c2 s2 l2, h => by
    unfold ETree.beq at h
    simp only [Bool.and_eq_true, beq_iff_eq] at h
    obtain ⟨⟨hc, hs⟩, hl⟩ := h
    subst hc; subst hs
    rw [ETree.eqList_of_beqList l1 l2 hl]

theorem ETree.eqList_of_beqList : ∀ a b : List ETree, ETree.beqList a b = true → a = b
  | [], [], _ => rfl
  | a :: as1, b :: bs, h => by
    unfold ETree.beqList at h
    simp only [Bool.and_eq_true] at h
    rw [ETree.eq_of_beq a b h.1, ETree.eqList_of_beqList as1 bs h.2]

end

mutual

theorem ETree.beq_self : ∀ a : ETree, ETree.beq a a = true
  | .node c1 s1 l1 => by
    unfold ETree.beq
    simp only [Bool.and_eq_true, beq_self_eq_true, true_and]
    exact ETree.beqList_self l1

theorem ETree.beqList_self : ∀ a : List ETree, ETree.beqList a a = true
  | [] => rfl
  | a :: as1 => by
    unfold ETree.beqList
    simp only [Bool.and_eq_true]
    exact ⟨ETree.beq_self a, ETree.beqList_self as1⟩

end

instance : DecidableEq ETree := fun a b =>
  if h : ETree.beq a b = true then .isTrue (ETree.eq_of_beq a b h)
  else .isFalse (fun he => h (he ▸ ETree.beq_self a))

def ETree.cls : ETree → Cls
  | .node c _ _ => c

def ETree.code : ETree → String
  | .node _ c _ => c

def ETree.childTrees : ETree → List ETree
  | .node _ _ cs => cs

/-- `ICDEntry.code_matches` on a tree node. -/
def codeMatches (t : ETree) (q : String) : Bool :=
  codeMatchesStr t.code q

/-- The cutoff test `maxdepth is not None and maxdepth <= self.depth` shared by
`search`, `exists` and `get`. -/
def cutoff (maxdepth : Option Int) (depth : Int) : Bool :=
  match maxdepth with
  | none => false
  | some md => md ≤ depth

mutual

/-- `ICDEntry.search`: pre-order collection of all entries matching `q`,
pruned once `maxdepth <= depth`. `depth` is the depth of `t`'s root entry in
the codex (1 for a codex root), which the source recomputes by walking the
parent chain. -/
def search (t : ETree) (q : String) (maxdepth : Option Int) (depth : Int) :
    List ETree :=
  match t with
  | .node cls code children =>
    if cutoff maxdepth depth then []
    else
      (if codeMatches (.node cls code children) q
        then [ETree.node cls code children] else [])
        ++ searchList children q maxdepth (depth + 1)

/-- The `for child in self.children` accumulation inside `search`. -/
def searchList (ts : List ETree) (q : String) (maxdepth : Option Int)
    (depth : Int) : List ETree :=
  match ts with
  | [] => []
  | c :: cs => search c q maxdepth depth ++ searchList cs q maxdepth depth

end

mutual

/-- `ICDEntry.exists`: short-circuiting boolean search with the same cutoff. -/
def existsCode (t : ETree) (q : String) (maxdepth : Option Int) (depth : Int) :
    Bool :=
  match t with
  | .node cls code children =>
    if cutoff maxdepth depth then false
    else if codeMatches (.node cls code children) q then true
    else existsCodeList children q maxdepth (depth + 1)

/-- The `any(child.exists(code, maxdepth) for child in self.children)` part. -/
def existsCodeList (ts : List ETree) (q : String) (maxdepth : Option Int)
    (depth : Int) : Bool :=
  match ts with
  | [] => false
  | c :: cs =>
    existsCode c q maxdepth depth || existsCodeList cs q maxdepth depth

end

mutual

/-- `ICDEntry.get`: first pre-order entry whose code matches and whose `kind`
property equals `kind`. The outer `none` models an `AttributeError` raised by
the `kind` property on an entry whose `_kind` is misconfigured; `some none` is
a normal miss. Note that the source's recursive call `child.get(code, maxdepth)`
drops the `kind` argument, so the recursion uses the default `"category"`. -/
def get (t : ETree) (q : String) (maxdepth : Option Int) (kind : String)
    (depth : Int) : Option (Option ETree) :=
  match t with
  | .node cls code children =>
    if cutoff maxdepth depth then some none
    else if codeMatches (.node cls code children) q then
      match cls.kindStr with
      | none => none
      | some k =>
        if k = kind then some (some (.node cls code children))
        else getList children q maxdepth (depth + 1)
    else getList children q maxdepth (depth + 1)

/-- The `for child in self.children: if (category := child.get(code, maxdepth))
is not None: return category` part; the recursive call uses kind `"category"`. -/
def getList (ts : List ETree) (q : String) (maxdepth : Option Int)
    (depth : Int) : Option (Option ETree) :=
  match ts with
  | [] => some none
  | c :: cs =>
    match get c q maxdepth "category" depth with
    | none => none
    | some (some r) => some (some r)
    | some none => getList cs q maxdepth depth

end

mutual

/-- `ICDEntry.entries` (pre-order), paired with each entry's depth, the root of
`t` sitting at depth `depth`. -/
def entriesD (t : ETree) (depth : Int) : List (ETree × Int) :=
  match t with
  | .node cls code children =>
    (ETree.node cls code children, depth) :: entriesDList children (depth + 1)

def entriesDList (ts : List ETree) (depth : Int) : List (ETree × Int) :=
  match ts with
  | [] => []
  | c :: cs => entriesD c depth ++ entriesDList cs depth

end

mutual

/-- `ICDEntry.entries`: the entry itself followed by all descendants,
pre-order. -/
def entriesT : ETree → List ETree
  | .node cls code children => ETree.node cls code children :: entriesTList children

def entriesTList : List ETree → List ETree
  | [] => []
  | c :: cs => entriesT c ++ entriesTList cs

end

/-! ## Basic lemmas about the traversals -/

theorem isSegOf_self (l : List Char) : isSegOf l l = true := by
  cases l with
  | nil => rfl
  | cons c rest =>
    unfold isSegOf
    have : List.isPrefixOf (c :: rest) (c :: rest) = true := by
      rw [List.isPrefixOf_iff_prefix]
    simp [this]

/-- Every entry's code matches itself as a query. -/
theorem codeMatches_self (t : ETree) : codeMatches t t.code = true := by
  unfold codeMatches codeMatchesStr
  simp [isSegOf_self]

mutual

theorem exists_iff_search_aux : ∀ (t : ETree) (q : String) (md : Option Int)
    (d : Int), existsCode t q md d = true ↔ search t q md d ≠ []
  | .node cls code children, q, md, d => by
    unfold existsCode search
    by_cases hc : cutoff md d
    · simp [hc]
    · by_cases hm : codeMatches (.node cls code children) q
      · simp [hc, hm]
      · simp only [hc, hm, if_true, if_false, Bool.false_eq_true, ite_false,
          List.nil_append]
        exact existsList_iff_searchList_aux children q md (d + 1)

theorem existsList_iff_searchList_aux : ∀ (ts : List ETree) (q : String)
    (md : Option Int) (d : Int),
    existsCodeList ts q md d = true ↔ searchList ts q md d ≠ []
  | [], q, md, d => by
    unfold existsCodeList searchList
    simp
  | c :: cs, q, md, d => by
    unfold existsCodeList searchList
    rw [Bool.or_eq_true]
    rw [exists_iff_search_aux c q md d, existsList_iff_searchList_aux cs q md d]
    simp [List.append_eq_nil]
    tauto

end

mutual

/-- Pre-order entries of a subtree rooted at depth `d` all have depth `≥ d`. -/
theorem depth_le_of_mem_entriesD : ∀ (t : ETree) (d : Int) (e : ETree)
    (de : Int), (e, de) ∈ entriesD t d → d ≤ de
  | .node cls code children, d, e, de => by
    unfold entriesD
    intro h
    rcases List.mem_cons.mp h with h | h
    · cases h; omega
    · have := depth_le_of_mem_entriesDList children (d + 1) e de h
      omega

theorem depth_le_of_mem_entriesDList : ∀ (ts : List ETree) (d : Int) (e : ETree)
    (de : Int), (e, de) ∈ entriesDList ts d → d ≤ de
  | [], d, e, de => by unfold entriesDList; intro h; cases h
  | c :: cs, d, e, de => by
    unfold entriesDList
    intro h
    rcases List.mem_append.mp h with h | h
    · exact depth_le_of_mem_entriesD c d e de h
    · exact depth_le_of_mem_entriesDList cs d e de h

end

mutual

/-- Characterization of `search`: an entry is in the results exactly when it
occurs somewhere in the subtree at a non-pruned depth and its code matches. -/
theorem mem_search_iff_aux : ∀ (t : ETree) (q : String) (md : Option Int)
    (d : Int) (e : ETree), e ∈ search t q md d ↔
      ∃ de, (e, de) ∈ entriesD t d ∧ cutoff md de = false ∧
        codeMatches e q = true
  | .node cls code children, q, md, d, e => by
    unfold search entriesD
    by_cases hc : cutoff md d
    · simp only [hc, if_true, List.not_mem_nil, false_iff, not_exists]
      intro de hmem
      rcases List.mem_cons.mp hmem.1 with h | h
      · cases h
        simp [hmem.2.1] at hc
      · have hd := depth_le_of_mem_entriesDList children (d + 1) e de h
        have : cutoff md de = true := by
          unfold cutoff at hc ⊢
          cases md with
          | none => simp at hc
          | some m => simp at hc ⊢; omega
        rw [hmem.2.1] at this
        cases this
    · simp only [hc, if_false, Bool.false_eq_true, ite_false, List.mem_append]
      constructor
      · intro h
        rcases h with h | h
        · by_cases hm : codeMatches (.node cls code children) q
          · simp only [hm, if_true, List.mem_singleton] at h
            subst h
            refine ⟨d, List.mem_cons_self _ _, ?_, hm⟩
            simpa using hc
          · simp [hm] at h
        · obtain ⟨de, hmem, hcut, hmatch⟩ :=
            (mem_searchList_iff_aux children q md (d + 1) e).mp h
          exact ⟨de, List.mem_cons_of_mem _ hmem, hcut, hmatch⟩
      · rintro ⟨de, hmem, hcut, hmatch⟩
        rcases List.mem_cons.mp hmem with h | h
        · obtain ⟨he, -⟩ := Prod.mk.injEq .. ▸ h
          cases h
          left
          simp [hmatch]
        · right
          exact (mem_searchList_iff_aux children q md (d + 1) e).mpr
            ⟨de, h, hcut, hmatch⟩

theorem mem_searchList_iff_aux : ∀ (ts : List ETree) (q : String)
    (md : Option Int) (d : Int) (e : ETree), e ∈ searchList ts q md d ↔
      ∃ de, (e, de) ∈ entriesDList ts d ∧ cutoff md de = false ∧
        codeMatches e q = true
  | [], q, md, d, e => by unfold searchList entriesDList; simp
  | c :: cs, q, md, d, e => by
    unfold searchList entriesDList
    rw [List.mem_append]
    rw [mem_search_iff_aux c q md d e, mem_searchList_iff_aux cs q md d e]
    constructor
    · rintro (⟨de, h1, h2, h3⟩ | ⟨de, h1, h2, h3⟩)
      · exact ⟨de, List.mem_append_left _ h1, h2, h3⟩
      · exact ⟨de, List.mem_append_right _ h1, h2, h3⟩
    · rintro ⟨de, h1, h2, h3⟩
      rcases List.mem_append.mp h1 with h | h
      · exact Or.inl ⟨de, h, h2, h3⟩
      · exact Or.inr ⟨de, h, h2, h3⟩

end

mutual

/-- `get` only returns entries that occur at a non-pruned depth and whose code
matches the query. -/
theorem get_some_mem_aux : ∀ (t : ETree) (q : String) (md : Option Int)
    (kind : String) (d : Int) (e : ETree),
    get t q md kind d = some (some e) →
      ∃ de, (e, de) ∈ entriesD t d ∧ cutoff md de = false ∧
        codeMatches e q = true
  | .node cls code children, q, md, kind, d, e => by
    unfold get entriesD
    by_cases hc : cutoff md d
    · simp [hc]
    · simp only [hc, if_false, Bool.false_eq_true, ite_false]
      by_cases hm : codeMatches (.node cls code children) q
      · simp only [hm, if_true]
        cases hk : cls.kindStr with
        | none => intro h; cases h
        | some k =>
          by_cases hkk : k = kind
          · simp only [hkk, if_true]
            intro h
            obtain rfl : ETree.node cls code children = e := by
              injection h with h'; injection h'
            refine ⟨d, List.mem_cons_self _ _, ?_, hm⟩
            simpa using hc
          · simp only [hkk, if_false]
            intro h
            obtain ⟨de, h1, h2, h3⟩ :=
              getList_some_mem_aux children q md (d + 1) e h
            exact ⟨de, List.mem_cons_of_mem _ h1, h2, h3⟩
      · simp only [hm, Bool.false_eq_true, ite_false]
        intro h
        obtain ⟨de, h1, h2, h3⟩ := getList_some_mem_aux children q md (d + 1) e h
        exact ⟨de, List.mem_cons_of_mem _ h1, h2, h3⟩

theorem getList_some_mem_aux : ∀ (ts : List ETree) (q : String)
    (md : Option Int) (d : Int) (e : ETree),
    getList ts q md d = some (some e) →
      ∃ de, (e, de) ∈ entriesDList ts d ∧ cutoff md de = false ∧
        codeMatches e q = true
  | [], q, md, d, e => by unfold getList; intro h; cases h
  | c :: cs, q, md, d, e => by
    unfold getList
    cases hg : get c q md "category" d with
    | none => intro h; cases h
    | some r =>
      cases r with
      | some u =>
        intro h
        have hue : u = e := by injection h with h'; injection h'
        obtain ⟨de, h1, h2, h3⟩ := get_some_mem_aux c q md "category" d u hg
        rw [hue] at h1 h3
        exact ⟨de, by unfold entriesDList; exact List.mem_append_left _ h1, h2, h3⟩
      | none =>
        intro h
        obtain ⟨de, h1, h2, h3⟩ := getList_some_mem_aux cs q md d e h
        exact ⟨de, by unfold entriesDList; exact List.mem_append_right _ h1, h2, h3⟩

end

mutual

/-- If `e` is a category entry of the tree and no other category entry's code
(with or without dots) contains `e.code` as a substring, the default-kind `get`
finds exactly `e`. -/
theorem get_unique_found : ∀ (t e : ETree) (dep : Int), e ∈ entriesT t →
    e.cls.kindStr = some "category" →
    (∀ u ∈ entriesT t, u.cls.kindStr ≠ none) →
    (∀ u ∈ entriesT t, u.cls.kindStr = some "category" →
      codeMatches u e.code = true → u = e) →
    get t e.code none "category" dep = some (some e)
  | .node cls code children, e, dep, hmem, hcat, hkinds, huniq => by
    have hself : ETree.node cls code children ∈
        entriesT (.node cls code children) := by
      unfold entriesT; exact List.mem_cons_self _ _
    by_cases heq : ETree.node cls code children = e
    · subst heq
      unfold get
      simp only [cutoff, if_false, Bool.false_eq_true, ite_false]
      simp only [codeMatches_self, if_true]
      have hcls : (ETree.node cls code children).cls = cls := rfl
      rw [hcls] at hcat
      rw [hcat]
      simp
    · have hmem' : e ∈ entriesTList children := by
        unfold entriesT at hmem
        rcases List.mem_cons.mp hmem with h | h
        · exact absurd h.symm heq
        · exact h
      have hsub : ∀ u ∈ entriesTList children,
          u ∈ entriesT (.node cls code children) := by
        intro u hu
        unfold entriesT
        exact List.mem_cons_of_mem _ hu
      unfold get
      simp only [cutoff, if_false, Bool.false_eq_true, ite_false]
      by_cases hm : codeMatches (.node cls code children) e.code
      · rw [if_pos hm]
        cases hk : cls.kindStr with
        | none =>
          exact absurd (show (ETree.node cls code children).cls.kindStr = none
            from hk) (hkinds _ hself)
        | some k =>
          have hkne : ¬ k = "category" := by
            intro hkc
            exact heq (huniq _ hself (hkc ▸ hk) hm)
          simp only [hkne, ite_false]
          exact get_unique_found_list children e (dep + 1) hmem' hcat
            (fun u hu => hkinds u (hsub u hu))
            (fun u hu => huniq u (hsub u hu))
      · rw [if_neg hm]
        exact get_unique_found_list children e (dep + 1) hmem' hcat
          (fun u hu => hkinds u (hsub u hu))
          (fun u hu => huniq u (hsub u hu))

theorem get_unique_found_list : ∀ (ts : List ETree) (e : ETree) (dep : Int),
    e ∈ entriesTList ts →
    e.cls.kindStr = some "category" →
    (∀ u ∈ entriesTList ts, u.cls.kindStr ≠ none) →
    (∀ u ∈ entriesTList ts, u.cls.kindStr = some "category" →
      codeMatches u e.code = true → u = e) →
    getList ts e.code none dep = some (some e)
  | [], e, dep, hmem, _, _, _ => by
    unfold entriesTList at hmem
    cases hmem
  | c :: cs, e, dep, hmem, hcat, hkinds, huniq => by
    have hsubl : ∀ u ∈ entriesT c, u ∈ entriesTList (c :: cs) := by
      intro u hu; unfold entriesTList; exact List.mem_append_left _ hu
    have hsubr : ∀ u ∈ entriesTList cs, u ∈ entriesTList (c :: cs) := by
      intro u hu; unfold entriesTList; exact List.mem_append_right _ hu
    unfold getList
    by_cases hec : e ∈ entriesT c
    · rw [get_unique_found c e dep hec hcat
        (fun u hu => hkinds u (hsubl u hu)) (fun u hu => huniq u (hsubl u hu))]
    · have hcnone : get c e.code none "category" dep = some none := by
        apply get_no_match
        · exact fun u hu => hkinds u (hsubl u hu)
        · intro u hu hk hm
          exact hec ((huniq u (hsubl u hu) hk hm) ▸ hu)
      rw [hcnone]
      have hmem' : e ∈ entriesTList cs := by
        unfold entriesTList at hmem
        rcases List.mem_append.mp hmem with h | h
        · exact absurd h hec
        · exact h
      exact get_unique_found_list cs e dep hmem' hcat
        (fun u hu => hkinds u (hsubr u hu)) (fun u hu => huniq u (hsubr u hu))

/-- If no category entry of the subtree matches `q`, `get` misses. -/
theorem get_no_match : ∀ (t : ETree) (q : String) (dep : Int),
    (∀ u ∈ entriesT t, u.cls.kindStr ≠ none) →
    (∀ u ∈ entriesT t, u.cls.kindStr = some "category" →
      codeMatches u q = true → False) →
    get t q none "category" dep = some none
  | .node cls code children, q, dep, hkinds, hnone => by
    have hself : ETree.node cls code children ∈
        entriesT (.node cls code children) := by
      unfold entriesT; exact List.mem_cons_self _ _
    have hsub : ∀ u ∈ entriesTList children,
        u ∈ entriesT (.node cls code children) := by
      intro u hu
      unfold entriesT
      exact List.mem_cons_of_mem _ hu
    unfold get
    simp only [cutoff, if_false, Bool.false_eq_true, ite_false]
    by_cases hm : codeMatches (.node cls code children) q
    · rw [if_pos hm]
      cases hk : cls.kindStr with
      | none =>
        exact absurd (show (ETree.node cls code children).cls.kindStr = none
          from hk) (hkinds _ hself)
      | some k =>
        have hkne : ¬ k = "category" := by
          intro hkc
          exact hnone _ hself (hkc ▸ hk) hm
        simp only [hkne, ite_false]
        exact get_no_match_list children q (dep + 1)
          (fun u hu => hkinds u (hsub u hu)) (fun u hu => hnone u (hsub u hu))
    · rw [if_neg hm]
      exact get_no_match_list children q (dep + 1)
        (fun u hu => hkinds u (hsub u hu)) (fun u hu => hnone u (hsub u hu))

theorem get_no_match_list : ∀ (ts : List ETree) (q : String) (dep : Int),
    (∀ u ∈ entriesTList ts, u.cls.kindStr ≠ none) →
    (∀ u ∈ entriesTList ts, u.cls.kindStr = some "category" →
      codeMatches u q = true → False) →
    getList ts q none dep = some none
  | [], q, dep, _, _ => by unfold getList; rfl
  | c :: cs, q, dep, hkinds, hnone => by
    have hsubl : ∀ u ∈ entriesT c, u ∈ entriesTList (c :: cs) := by
      intro u hu; unfold entriesTList; exact List.mem_append_left _ hu
    have hsubr : ∀ u ∈ entriesTList cs, u ∈ entriesTList (c :: cs) := by
      intro u hu; unfold entriesTList; exact List.mem_append_right _ hu
    unfold getList
    rw [get_no_match c q dep (fun u hu => hkinds u (hsubl u hu))
      (fun u hu => hnone u (hsubl u hu))]
    exact get_no_match_list cs q dep (fun u hu => hkinds u (hsubr u hu))
      (fun u hu => hnone u (hsubr u hu))

end

/-! ## The spec §8 scenario tree, used for witnesses -/

/-- `category A00.0` of the spec's scenario. -/
def scenCat : ETree := .node .cmCategory "A00.0" []

/-- `block A00-A09` of the spec's scenario. -/
def scenBlock : ETree := .node .cmBlock "A00-A09" [scenCat]

/-- `chapter I` of the spec's scenario. -/
def scenChapter : ETree := .node .cmChapter "I" [scenBlock]

/-- The scenario codex: root, chapter `I`, block `A00-A09`, category `A00.0`. -/
def scenRoot : ETree := .node .cmRoot "ICD-10-CM root" [scenChapter]

/-! ## Claims C2, C3, C4, C9 -/

/-- A tree with a root and two category children whose codes overlap as
substrings: pre-order lists `A00.0` before `A00`. -/
def exC2root : ETree :=
  .node .cmRoot "R" [.node .cmCategory "A00.0" [], .node .cmCategory "A00" []]

/-- C2 counterexample: in a tree with unique codes, `get(root, "A00",
kind="category")` returns the earlier pre-order entry `A00.0` (whose code
contains `"A00"` as a substring), not the entry whose code is `"A00"`, so the
round-trip identity fails for the entry with code `A00`. -/
theorem C2_counterexample :
    ETree.node .cmCategory "A00" [] ∈ entriesT exC2root
      ∧ ((entriesT exC2root).map ETree.code).Nodup
      ∧ get exC2root "A00" none "category" 1
          = some (some (ETree.node .cmCategory "A00.0" []))
      ∧ ETree.node Cls.cmCategory "A00.0" [] ≠ ETree.node .cmCategory "A00" [] := by
  refine ⟨?_, ?_, ?_, ?_⟩ <;> decide

/-- C2 (amended): `get(tree, e.code, kind="category")` returns a category
entry `e` of the tree provided no other category entry's code or dotless code
contains `e.code` as a substring; unique codes alone do not suffice, and for
kinds other than `"category"` the requested kind is only honored at the entry
`get` is called on, because the recursive call drops the `kind` argument. -/
theorem C2_amended_roundtrip (t e : ETree) (dep : Int) (h1 : e ∈ entriesT t)
    (h2 : e.cls.kindStr = some "category")
    (h3 : ∀ u ∈ entriesT t, u.cls.kindStr ≠ none)
    (h4 : ∀ u ∈ entriesT t, u.cls.kindStr = some "category" →
      codeMatches u e.code = true → u = e) :
    get t e.code none "category" dep = some (some e) :=
  get_unique_found t e dep h1 h2 h3 h4

/-- Witness for `C2_amended_roundtrip` on the spec's scenario codex. -/
theorem C2_amended_roundtrip_witness :
    get scenRoot "A00.0" none "category" 1 = some (some scenCat) :=
  C2_amended_roundtrip scenRoot scenCat 1 (by decide) (by decide) (by decide)
    (by decide)

/-- C3: with `maxdepth = d`, (1) `search` returns exactly the matching entries
occurring at depth `< d`, (2) `exists` is true iff some entry at depth `< d`
matches, and (3) `get` only ever returns an entry occurring at depth `< d`; in
particular entries of depth `≥ d` are excluded from all three. -/
theorem C3_depth_cutoff (t : ETree) (q : String) (d dep : Int) :
    (∀ e : ETree, e ∈ search t q (some d) dep ↔
      ∃ de, (e, de) ∈ entriesD t dep ∧ de < d ∧ codeMatches e q = true)
    ∧ (existsCode t q (some d) dep = true ↔
      ∃ e de, (e, de) ∈ entriesD t dep ∧ de < d ∧ codeMatches e q = true)
    ∧ (∀ (kind : String) (e : ETree), get t q (some d) kind dep = some (some e) →
      ∃ de, (e, de) ∈ entriesD t dep ∧ de < d) := by
  have hcut : ∀ de : Int, cutoff (some d) de = false ↔ de < d := by
    intro de
    unfold cutoff
    simp
  refine ⟨?_, ?_, ?_⟩
  · intro e
    rw [mem_search_iff_aux]
    constructor
    · rintro ⟨de, h1, h2, h3⟩
      exact ⟨de, h1, (hcut de).mp h2, h3⟩
    · rintro ⟨de, h1, h2, h3⟩
      exact ⟨de, h1, (hcut de).mpr h2, h3⟩
  · rw [exists_iff_search_aux]
    constructor
    · intro hne
      obtain ⟨e, he⟩ := List.exists_mem_of_ne_nil _ hne
      obtain ⟨de, h1, h2, h3⟩ := (mem_search_iff_aux t q (some d) dep e).mp he
      exact ⟨e, de, h1, (hcut de).mp h2, h3⟩
    · rintro ⟨e, de, h1, h2, h3⟩
      have : e ∈ search t q (some d) dep :=
        (mem_search_iff_aux t q (some d) dep e).mpr ⟨de, h1, (hcut de).mpr h2, h3⟩
      exact List.ne_nil_of_mem this
  · intro kind e hget
    obtain ⟨de, h1, h2, _⟩ := get_some_mem_aux t q (some d) kind dep e hget
    exact ⟨de, h1, (hcut de).mp h2⟩

/-- Witness for `C3_depth_cutoff`: the scenario category sits at depth 4 < 9
and is found by `get`. -/
theorem C3_depth_cutoff_witness :
    ∃ de, (scenCat, de) ∈ entriesD scenRoot 1 ∧ de < 9 :=
  (C3_depth_cutoff scenRoot "A00.0" 9 1).2.2 "category" scenCat (by decide)

/-- C4 counterexample: a root whose code matches the query sits at depth
exactly `maxdepth = 1`, yet `search` returns nothing — the entry at exactly
`maxdepth` is pruned, not tested. -/
theorem C4_counterexample :
    codeMatches (ETree.node .cmRoot "A" []) "A" = true
      ∧ search (ETree.node .cmRoot "A" []) "A" (some 1) 1 = [] := by
  exact ⟨by decide, by decide⟩

/-- C4 (amended): for `search` with `maxdepth = d`, an entry at depth exactly
`d` is NOT tested: the recursion stops as soon as `maxdepth <= depth`, so a
subtree rooted at depth `≥ d` contributes nothing, while an entry at depth
`< d` is still tested and returned on a match. -/
theorem C4_amended_boundary (t : ETree) (q : String) (d dep : Int) :
    (d ≤ dep → search t q (some d) dep = [])
      ∧ (dep < d → codeMatches t q = true → t ∈ search t q (some d) dep) := by
  constructor
  · intro h
    cases t with
    | node cls code children =>
      unfold search
      have : cutoff (some d) dep = true := by
        unfold cutoff
        simpa using h
      rw [this]
      simp
  · intro h1 h2
    cases t with
    | node cls code children =>
      unfold search
      have : cutoff (some d) dep = false := by
        unfold cutoff
        simp
        omega
      rw [this]
      simp only [Bool.false_eq_true, ite_false, h2, if_true]
      exact List.mem_append_left _ (List.mem_singleton.mpr rfl)

/-- Witness for `C4_amended_boundary` at depth 1 with cutoffs 1 and 2. -/
theorem C4_amended_boundary_witness :
    search (ETree.node Cls.cmRoot "A" []) "A" (some 1) 1 = []
      ∧ ETree.node Cls.cmRoot "A" [] ∈
          search (ETree.node Cls.cmRoot "A" []) "A" (some 2) 1 :=
  ⟨(C4_amended_boundary (ETree.node Cls.cmRoot "A" []) "A" 1 1).1 (by norm_num),
    (C4_amended_boundary (ETree.node Cls.cmRoot "A" []) "A" 2 1).2 (by norm_num)
      (by decide)⟩

/-- C9: `exists` returns true exactly when `search` returns a non-empty list,
for every entry, query, starting depth and `maxdepth` (including `none`). -/
theorem C9_exists_iff_search_nonempty (t : ETree) (q : String)
    (md : Option Int) (d : Int) :
    existsCode t q md d = true ↔ search t q md d ≠ [] :=
  exists_iff_search_aux t q md d

/-! ## The heap model

The mutating methods `add_child` / `remove_child` and the upward accessors
work on the object graph through identity and parent pointers, so they are
embedded over a heap: an association list from integer ids to entry records. -/

/-- One `ICDEntry` object: its class, the `code`, `title` and `_release`
attributes, the `parent` pointer (an id or `None`) and the `children` list
(ids in order). `rel = none` models an absent `_release` attribute. -/
structure Entry where
  cls : Cls
  code : String
  title : String
  parent : Option Nat
  children : List Nat
  rel : Option String
  deriving DecidableEq, Repr

/-- The object heap: an association list from ids to entries. -/
abbrev Heap := List (Nat × Entry)

/-- Dereference an id. -/
def hget (st : Heap) (i : Nat) : Option Entry :=
  (List.find? (fun p => p.1 == i) st).map (fun p => p.2)

/-- Overwrite the entry at id `i` (appending it if the id is fresh). -/
def hset : Heap → Nat → Entry → Heap
  | [], i, e => [(i, e)]
  | (k, v) :: tl, i, e =>
    if k = i then (i, e) :: tl else (k, v) :: hset tl i e

/-- `ICD10CMBlock.should_contain` (with `ICDBlock.should_contain` as the base
case): dispatches on the receiver's class; `none` models either the
`ValueError` raised by `end_code` on a multi-dash code, or the absence of a
`should_contain` method on a non-block receiver. -/
def shouldContain (st : Heap) (selfId otherId : Nat) : Option Bool :=
  match hget st selfId, hget st otherId with
  | some s, some o =>
    match s.cls with
    | .cmBlock =>
      if o.cls ≠ Cls.cmBlock then some false
      else if selfId = otherId then some false
      else
        match endCode o.code, endCode s.code with
        | some oe, some se =>
          some ((!lexLt (startCode o.code).toList (startCode s.code).toList)
            && (!lexLt se.toList oe.toList))
        | _, _ => none
    | .block => some false
    | _ => none
  | _, _ => none

/-- `ICDEntry.remove_child`: remove `childId` from the receiver's children if
listed, and clear the child's parent pointer only if it still points at the
receiver. -/
def removeChild (st : Heap) (selfId childId : Nat) : Heap :=
  match hget st selfId with
  | none => st
  | some s =>
    if childId ∈ s.children then
      let st1 := hset st selfId { s with children := s.children.erase childId }
      match hget st1 childId with
      | none => st1
      | some c =>
        if c.parent = some selfId then hset st1 childId { c with parent := none }
        else st1
    else st

mutual

/-- `ICDEntry.add_child`, fueled (the source recurses on the object graph).
`none` is fuel exhaustion, an exception propagating from `should_contain`, or
a dangling id (which cannot arise from a Python object reference). -/
def addChild (fuel : Nat) (st : Heap) (selfId newId : Nat) : Option Heap :=
  match fuel with
  | 0 => none
  | fuel + 1 =>
    match hget st selfId, hget st newId with
    | some s, some n =>
      if n.cls.isRootCls then some st
      else if newId ∈ s.children then some st
      else
        -- `are_children_block` is computed before the sibling loop runs
        let areBlocks := s.children.all (fun cid =>
          match hget st cid with
          | some c => c.cls.isBlockCls
          | none => false)
        let looped :=
          if areBlocks && n.cls.isBlockCls then addLoop fuel st selfId newId 0
          else some (st, false)
        match looped with
        | none => none
        | some (st2, true) => some st2
        | some (st2, false) =>
          match hget st2 newId with
          | none => none
          | some n2 =>
            let st3 :=
              match n2.parent with
              | some q => removeChild st2 q newId
              | none => st2
            match hget st3 newId with
            | none => none
            | some n3 =>
              let st4 := hset st3 newId { n3 with parent := some selfId }
              match hget st4 selfId with
              | none => none
              | some s4 =>
                some (hset st4 selfId
                  { s4 with children := s4.children ++ [newId] })
    | _, _ => none
termination_by structural fuel

/-- The `for block in self.children` loop of `add_child`. Python's list
iterator keeps a cursor `i` and re-reads the live list on every step, which is
what makes an absorbed sibling's successor be skipped. Returns the heap and
whether the loop returned early (via `block.add_child(new_child); return`). -/
def addLoop (fuel : Nat) (st : Heap) (selfId newId i : Nat) :
    Option (Heap × Bool) :=
  match fuel with
  | 0 => none
  | fuel + 1 =>
    match hget st selfId with
    | none => none
    | some s =>
      if h : i < s.children.length then
        let b := s.children.get ⟨i, h⟩
        match shouldContain st b newId with
        | none => none
        | some true =>
          match addChild fuel st b newId with
          | none => none
          | some st2 => some (st2, true)
        | some false =>
          match shouldContain st newId b with
          | none => none
          | some true =>
            let st2 := removeChild st selfId b
            match addChild fuel st2 newId b with
            | none => none
            | some st3 => addLoop fuel st3 selfId newId (i + 1)
          | some false => addLoop fuel st selfId newId (i + 1)
      else some (st, false)
termination_by structural fuel

end

/-- The `for child in children: self.add_child(child)` loop of `__init__`. -/
def addChildren : Nat → Heap → Nat → List Nat → Option Heap
  | _, st, _, [] => some st
  | fuel, st, selfId, c :: cs =>
    match addChild fuel st selfId c with
    | none => none
    | some st1 => addChildren fuel st1 selfId cs

/-- `ICDEntry.__init__`: the object is created with `parent = None`; if a
parent is given, `parent.add_child(self)` runs next (the source sets `code`,
`title` and `children = []` only afterwards; the record form sets them up
front, which no call path proved here observes early); finally the given
children are added one by one. No validation of the kind happens anywhere. -/
def initEntry (fuel : Nat) (st : Heap) (newId : Nat) (cls : Cls)
    (code title : String) (parentId : Option Nat)
    (childIds : Option (List Nat)) : Option Heap :=
  let st0 := hset st newId
    { cls := cls, code := code, title := title, parent := none, children := [],
      rel := none }
  match parentId with
  | some p =>
    match addChild fuel st0 p newId with
    | none => none
    | some st1 => addChildren fuel st1 newId (childIds.getD [])
  | none => addChildren fuel st0 newId (childIds.getD [])

/-- The `ICDEntry.kind` property: returns `_kind` when it is one of the four
allowed strings; `none` models the `AttributeError` raised otherwise. -/
def kindProp (st : Heap) (i : Nat) : Option String :=
  match hget st i with
  | none => none
  | some e =>
    match e.cls.kindStr with
    | none => none
    | some k =>
      if k ∈ ["root", "chapter", "block", "category"] then some k else none

/-- Result of the upward `root` walk: the root's id, an `AttributeError`
(`self.parent.root` evaluated on `None`), or fuel exhaustion. -/
inductive UpRes where
  | found (i : Nat)
  | attrErr
  | fuelOut
  deriving DecidableEq, Repr

/-- `ICDEntry.is_root`: `issubclass(type(self), ICDRoot) and self.parent is
None`. -/
def isRootProp (st : Heap) (i : Nat) : Bool :=
  match hget st i with
  | some e => e.cls.isRootCls && e.parent == none
  | none => false

/-- The `ICDEntry.root` property: `self` if `is_root`, else `self.parent.root`;
a `None` parent raises an `AttributeError`. -/
def rootProp : Nat → Heap → Nat → UpRes
  | 0, _, _ => .fuelOut
  | fuel + 1, st, i =>
    if isRootProp st i then .found i
    else
      match hget st i with
      | none => .attrErr
      | some e =>
        match e.parent with
        | none => .attrErr
        | some p => rootProp fuel st p

/-- Result of the `release` property: the release string, an `AttributeError`
(either from the `root` walk or from a missing `_release`), or fuel
exhaustion. -/
inductive StrRes where
  | val (s : String)
  | attrErr
  | fuelOut
  deriving DecidableEq, Repr

/-- The `ICDEntry.release` property: `self._release` when `is_root`, else
`self.root.release`. -/
def releaseProp (fuel : Nat) (st : Heap) (i : Nat) : StrRes :=
  if isRootProp st i then
    match hget st i with
    | some e =>
      match e.rel with
      | some r => .val r
      | none => .attrErr
    | none => .attrErr
  else
    match rootProp fuel st i with
    | .found r =>
      match hget st r with
      | some e =>
        match e.rel with
        | some rl => .val rl
        | none => .attrErr
      | none => .attrErr
    | .attrErr => .attrErr
    | .fuelOut => .fuelOut

/-! ## Heap lemmas -/

theorem hget_hset (st : Heap) (i : Nat) (e : Entry) (j : Nat) :
    hget (hset st i e) j = if j = i then some e else hget st j := by
  induction st with
  | nil =>
    by_cases h : j = i
    · subst h
      simp [hset, hget]
    · have h2 : ¬ i = j := fun hh => h hh.symm
      simp [hset, hget, h, h2]
  | cons hd tl ih =>
    obtain ⟨k, v⟩ := hd
    by_cases hk : k = i
    · subst hk
      by_cases hj : j = k
      · subst hj
        simp [hset, hget]
      · have h2 : ¬ k = j := fun hh => hj hh.symm
        simp [hset, hget, hj, h2]
    · by_cases hj : j = k
      · subst hj
        have h2 : ¬ j = i := fun hh => hk (hh ▸ rfl)
        simp [hset, hget, hk, h2]
      · have h2 : ¬ k = j := fun hh => hj hh.symm
        simp only [hset, if_neg hk]
        unfold hget
        simp only [List.find?_cons, show ((k, v).1 == j) = false from by
          simpa using h2]
        exact ih

theorem hget_hset_self (st : Heap) (i : Nat) (e : Entry) :
    hget (hset st i e) i = some e := by
  rw [hget_hset]; simp

theorem hget_hset_ne (st : Heap) (i : Nat) (e : Entry) (j : Nat) (h : j ≠ i) :
    hget (hset st i e) j = hget st j := by
  rw [hget_hset]; simp [h]

/-! ## Claim C8: `remove_child` -/

/-- C8: `remove_child` is a no-op when the child is not listed; when it is
listed, it is erased from the parent's children; the child's parent pointer is
cleared exactly when it still points at the parent and is kept otherwise; and
under the precondition `child.parent == parent` (with set-semantics children,
as the data model requires) the child ends detached: parent `None` and no
longer among the parent's children. -/
theorem C8_removeChild_semantics (st : Heap) (p c : Nat) (pe ce : Entry)
    (hp : hget st p = some pe) (hc : hget st c = some ce) :
    (c ∉ pe.children → removeChild st p c = st)
      ∧ (c ∈ pe.children →
          (hget (removeChild st p c) p).map Entry.children
            = some (pe.children.erase c))
      ∧ (c ∈ pe.children → ce.parent = some p →
          (hget (removeChild st p c) c).map Entry.parent = some none)
      ∧ (c ∈ pe.children → ce.parent ≠ some p →
          (hget (removeChild st p c) c).map Entry.parent = some ce.parent)
      ∧ (c ∈ pe.children → ce.parent = some p → pe.children.count c ≤ 1 →
          c ∉ ((hget (removeChild st p c) p).map Entry.children).getD []) := by
  have hmain : ∀ hmem : c ∈ pe.children,
      (hget (removeChild st p c) p).map Entry.children
          = some (pe.children.erase c)
        ∧ ((hget (removeChild st p c) c).map Entry.parent
            = if ce.parent = some p then some none else some ce.parent) := by
    intro hmem
    simp only [removeChild, hp]
    rw [if_pos hmem]
    by_cases hpc : p = c
    · subst hpc
      have hce : pe = ce := by
        rw [hp] at hc
        injection hc
      subst hce
      simp only [hget_hset_self]
      by_cases hpar : pe.parent = some p
      · rw [if_pos hpar, if_pos hpar]
        refine ⟨?_, ?_⟩ <;> rw [hget_hset_self] <;> rfl
      · rw [if_neg hpar, if_neg hpar]
        refine ⟨?_, ?_⟩ <;> rw [hget_hset_self] <;> rfl
    · have hne1 : c ≠ p := fun hh => hpc hh.symm
      simp only [hget_hset_ne _ _ _ _ hne1, hc]
      by_cases hpar : ce.parent = some p
      · rw [if_pos hpar, if_pos hpar]
        refine ⟨?_, ?_⟩
        · rw [hget_hset_ne _ _ _ _ hpc, hget_hset_self]
          rfl
        · rw [hget_hset_self]
          rfl
      · rw [if_neg hpar, if_neg hpar]
        refine ⟨?_, ?_⟩
        · rw [hget_hset_self]
          rfl
        · rw [hget_hset_ne _ _ _ _ hne1, hc]
          rfl
  refine ⟨?_, ?_, ?_, ?_, ?_⟩
  · intro hnot
    simp only [removeChild, hp]
    rw [if_neg hnot]
  · intro hmem
    exact (hmain hmem).1
  · intro hmem hpar
    rw [(hmain hmem).2, if_pos hpar]
  · intro hmem hpar
    rw [(hmain hmem).2, if_neg hpar]
  · intro hmem hpar hcount
    rw [(hmain hmem).1]
    simp only [Option.getD_some]
    intro habs
    have := List.count_erase_self c pe.children
    have hpos := List.count_pos_iff.mpr habs
    omega

/-- A three-entry heap for the `remove_child` witness: a root with one chapter
child and one detached block. -/
def exC8heap : Heap :=
  [(0, ⟨Cls.cmRoot, "R", "t", none, [1], some "2022"⟩),
   (1, ⟨Cls.cmChapter, "I", "t", some 0, [], none⟩),
   (2, ⟨Cls.cmBlock, "A00-A09", "t", none, [], none⟩)]

/-- Witness for `C8_removeChild_semantics`: removing a non-child is a no-op,
and detaching the chapter clears its parent pointer. -/
theorem C8_removeChild_semantics_witness :
    removeChild exC8heap 0 2 = exC8heap
      ∧ (hget (removeChild exC8heap 0 1) 1).map Entry.parent = some none :=
  ⟨(C8_removeChild_semantics exC8heap 0 2
      ⟨Cls.cmRoot, "R", "t", none, [1], some "2022"⟩
      ⟨Cls.cmBlock, "A00-A09", "t", none, [], none⟩ (by decide) (by decide)).1
      (by decide),
    (C8_removeChild_semantics exC8heap 0 1
      ⟨Cls.cmRoot, "R", "t", none, [1], some "2022"⟩
      ⟨Cls.cmChapter, "I", "t", some 0, [], none⟩ (by decide) (by decide)).2.2.1
      (by decide) (by decide)⟩

/-! ## Claim C1: nesting correction on insertion -/

/-- The C1 scenario heap: chapter `0` with the sibling blocks
`B1 = A00-A09` (id 1) and `B2 = A10-A19` (id 2); `B3 = A00-A19` (id 3) is
detached and about to be inserted. -/
def exC1heap : Heap :=
  [(0, ⟨.cmChapter, "CH", "t", none, [1, 2], none⟩),
   (1, ⟨.cmBlock, "A00-A09", "t", some 0, [], none⟩),
   (2, ⟨.cmBlock, "A10-A19", "t", some 0, [], none⟩),
   (3, ⟨.cmBlock, "A00-A19", "t", none, [], none⟩)]

/-- C1 counterexample: after `add_child(parent, B3)` it is NOT the case that
both `B1` and `B2` are children of `B3` — `B2` (id 2) is skipped because the
loop removes `B1` from the sibling list it is iterating over. -/
theorem C1_counterexample :
    ¬ ((addChild 10 exC1heap 0 3).bind (fun s => (hget s 3).map
      (fun e => decide ((1 : Nat) ∈ e.children) && decide ((2 : Nat) ∈ e.children)))
      = some true) := by
  decide

/-- C1 (amended): inserting `B3 = A00-A19` next to `B1 = A00-A09` and
`B2 = A10-A19` re-homes only `B1` under `B3`: the absorption loop removes `B1`
from the sibling list while iterating it, so `B2` is skipped and remains a
child of the original parent, whose block children end up `[B2, B3]`. -/
theorem C1_amended_skip :
    ((addChild 10 exC1heap 0 3).bind (fun s => (hget s 3).map Entry.children)
        = some [1])
      ∧ ((addChild 10 exC1heap 0 3).bind (fun s => (hget s 0).map Entry.children)
        = some [2, 3])
      ∧ ((addChild 10 exC1heap 0 3).bind (fun s => (hget s 1).map Entry.parent)
        = some (some 3))
      ∧ ((addChild 10 exC1heap 0 3).bind (fun s => (hget s 2).map Entry.parent)
        = some (some 0)) := by
  refine ⟨?_, ?_, ?_, ?_⟩ <;> decide

/-! ## Claim C7: `add_child` defensive no-ops -/

/-- C7 (amended): `add_child` returns with the heap unchanged (and without
raising) when the new child is a root-kind entry or is already listed among
the receiver's children. Re-adding an entry that the nesting correction had
re-homed under a sibling is NOT such a no-op and can change
`len(parent.children)` (see the counterexample). -/
theorem C7_amended_noop (fuel : Nat) (st : Heap) (p c : Nat) (pe ce : Entry)
    (hp : hget st p = some pe) (hc : hget st c = some ce)
    (h : ce.cls.isRootCls = true ∨ c ∈ pe.children) :
    addChild (fuel + 1) st p c = some st := by
  unfold addChild
  rw [hp, hc]
  rcases h with h | h
  · simp only [h, if_true]
  · by_cases hr : ce.cls.isRootCls = true
    · simp only [hr, if_true]
    · simp only [hr, Bool.false_eq_true, if_false, h, if_true, ite_true,
        ite_false]

/-- A chapter with one block child, used as the `C7_amended_noop` witness. -/
def exC7noop : Heap :=
  [(0, ⟨Cls.cmChapter, "CH", "t", none, [1], none⟩),
   (1, ⟨Cls.cmBlock, "A00-A09", "t", some 0, [], none⟩),
   (2, ⟨Cls.cmRoot, "R", "t", none, [], some "2022"⟩)]

/-- Witness for `C7_amended_noop`: re-adding the listed block child and adding
a root are both no-ops. -/
theorem C7_amended_noop_witness :
    addChild 4 exC7noop 0 1 = some exC7noop
      ∧ addChild 4 exC7noop 0 2 = some exC7noop :=
  ⟨C7_amended_noop 3 exC7noop 0 1 ⟨Cls.cmChapter, "CH", "t", none, [1], none⟩
      ⟨Cls.cmBlock, "A00-A09", "t", some 0, [], none⟩ (by decide) (by decide)
      (Or.inr (by decide)),
    C7_amended_noop 3 exC7noop 0 2 ⟨Cls.cmChapter, "CH", "t", none, [1], none⟩
      ⟨Cls.cmRoot, "R", "t", none, [], some "2022"⟩ (by decide) (by decide)
      (Or.inl (by decide))⟩

/-- The C7 counterexample heap: chapter `0` with block children
`C-D, D-E, B-G, A-H` (ids 1-4) and a detached block `C-F` (id 5). -/
def exC7heap : Heap :=
  [(0, ⟨.cmChapter, "CH", "t", none, [1, 2, 3, 4], none⟩),
   (1, ⟨.cmBlock, "C-D", "t", some 0, [], none⟩),
   (2, ⟨.cmBlock, "D-E", "t", some 0, [], none⟩),
   (3, ⟨.cmBlock, "B-G", "t", some 0, [], none⟩),
   (4, ⟨.cmBlock, "A-H", "t", some 0, [], none⟩),
   (5, ⟨.cmBlock, "C-F", "t", none, [], none⟩)]

/-- C7 counterexample: adding the same child twice does NOT leave the parent's
children list unchanged in length. The first `add_child(0, 5)` absorbs `C-D`,
skips `D-E`, and re-homes `C-F` under `B-G` (3 children remain); the second
call absorbs the previously skipped `D-E` and re-homes `C-F` under `A-H`,
leaving 2 children. -/
theorem C7_counterexample :
    ((addChild 20 exC7heap 0 5).bind (fun s => (hget s 0).map
        (fun e => e.children.length)) = some 3)
      ∧ (((addChild 20 exC7heap 0 5).bind (fun s => addChild 20 s 0 5)).bind
          (fun s => (hget s 0).map (fun e => e.children.length)) = some 2) := by
  refine ⟨?_, ?_⟩ <;> decide

/-! ## Claim C6: no kind validation at construction -/

/-- C6: constructing a bare `ICDEntry` — whose `_kind` is `None`, not one of
`root`, `chapter`, `block`, `category` — succeeds (no `ValidationError` or any
other exception is raised at construction time); only a later access to the
`kind` property raises (`AttributeError`), modelled by the inner `none`. -/
theorem C6_no_construction_validation :
    (initEntry 5 ([] : Heap) 0 Cls.entry "A00" "a title" none none).map
      (fun s => kindProp s 0) = some none := by
  decide

/-! ## Claim C10: upward accessors on detached entries -/

/-- C10: on an entry that is not root-kind and has no parent (a detached
chapter, block or category), the `root` property — and therefore `release` —
raises an `AttributeError` (from `self.parent.root` with `parent = None`)
instead of returning a value, for every amount of fuel. -/
theorem C10_detached_accessors (st : Heap) (i : Nat) (e : Entry) (fuel : Nat)
    (he : hget st i = some e) (hk : e.cls.kindStr ≠ some "root")
    (hp : e.parent = none) :
    rootProp (fuel + 1) st i = UpRes.attrErr
      ∧ releaseProp (fuel + 1) st i = StrRes.attrErr := by
  have hnr : e.cls.isRootCls = false := by
    cases hcls : e.cls <;> simp [Cls.isRootCls] <;>
      rw [hcls] at hk <;> simp [Cls.kindStr] at hk
  have hroot : isRootProp st i = false := by
    unfold isRootProp
    rw [he]
    simp [hnr]
  have h1 : rootProp (fuel + 1) st i = UpRes.attrErr := by
    unfold rootProp
    rw [hroot]
    simp only [Bool.false_eq_true, ite_false, he, hp]
  refine ⟨h1, ?_⟩
  unfold releaseProp
  rw [hroot]
  simp only [Bool.false_eq_true, ite_false, h1]

/-- Witness for `C10_detached_accessors`: a single detached chapter. -/
theorem C10_detached_accessors_witness :
    rootProp 4 [(0, ⟨Cls.cmChapter, "I", "t", none, [], none⟩)] 0
        = UpRes.attrErr
      ∧ releaseProp 4 [(0, ⟨Cls.cmChapter, "I", "t", none, [], none⟩)] 0
        = StrRes.attrErr :=
  C10_detached_accessors [(0, ⟨Cls.cmChapter, "I", "t", none, [], none⟩)] 0
    ⟨Cls.cmChapter, "I", "t", none, [], none⟩ 3 (by decide) (by decide)
    (by decide)

/-! ## Claim C5: structural invariants

The invariants are phrased over parent pointers and children lists:
`parentOf st i = none` means id `i` is dangling, `some none` a parentless
entry, `some (some q)` a parent pointer to `q`. -/

/-- The parent pointer of id `i`, `none` when the id is dangling. -/
def parentOf (st : Heap) (i : Nat) : Option (Option Nat) :=
  (hget st i).map (fun e => e.parent)

/-- The children list of id `i` (empty when dangling). -/
def childrenOf (st : Heap) (i : Nat) : List Nat :=
  ((hget st i).map (fun e => e.children)).getD []

/-- Walk `n` parent links up from `i`; `none` once the walk falls off (a
parentless entry or a dangling id). -/
def iterPar (st : Heap) : Nat → Nat → Option Nat
  | 0, i => some i
  | n + 1, i =>
    match parentOf st i with
    | some (some p) => iterPar st n p
    | _ => none

/-- `y` lies on the parent chain of `x` (possibly `x` itself). -/
def Reaches (st : Heap) (x y : Nat) : Prop :=
  ∃ n, iterPar st n x = some y

/-- `y` lies strictly above `x` on the parent chain. -/
def SReach (st : Heap) (x y : Nat) : Prop :=
  ∃ n, 0 < n ∧ iterPar st n x = some y

/-- The parent chain of `x` falls off after finitely many steps. -/
def Terminates (st : Heap) (x : Nat) : Prop :=
  ∃ n, iterPar st n x = none

/-- The structural invariants of the codex object graph claimed by the spec:
children point back to their parent, parent pointers are listed (bidirectional
consistency), children lists are duplicate-free with single ownership across
parents, and every parent chain terminates (acyclicity). -/
structure WF (st : Heap) : Prop where
  backref : ∀ p pe c ce, hget st p = some pe → c ∈ pe.children →
    hget st c = some ce → ce.parent = some p
  parentref : ∀ c ce q, hget st c = some ce → ce.parent = some q →
    ∃ qe, hget st q = some qe ∧ c ∈ qe.children
  childNodup : ∀ p pe, hget st p = some pe → pe.children.Nodup
  ownership : ∀ p pe q qe c, hget st p = some pe → hget st q = some qe →
    c ∈ pe.children → c ∈ qe.children → p = q
  acyclic : ∀ i, Terminates st i

/-! ### Parent-chain lemmas -/

theorem iterPar_succ_none (st : Heap) (i n : Nat) (h : parentOf st i = none) :
    iterPar st (n + 1) i = none := by
  unfold iterPar
  rw [h]

theorem iterPar_succ_top (st : Heap) (i n : Nat)
    (h : parentOf st i = some none) : iterPar st (n + 1) i = none := by
  unfold iterPar
  rw [h]

theorem iterPar_succ_par (st : Heap) (i q n : Nat)
    (h : parentOf st i = some (some q)) :
    iterPar st (n + 1) i = iterPar st n q := by
  have hstep : iterPar st (n + 1) i
      = match parentOf st i with
        | some (some p) => iterPar st n p
        | _ => none := rfl
  rw [hstep, h]

theorem iterPar_add (st : Heap) (m n x : Nat) :
    iterPar st (m + n) x = (iterPar st m x).bind (fun z => iterPar st n z) := by
  induction m generalizing x with
  | zero => simp [iterPar]
  | succ m ih =>
    rw [show m + 1 + n = (m + n) + 1 from by omega]
    cases hpx : parentOf st x with
    | none =>
      rw [iterPar_succ_none st x _ hpx, iterPar_succ_none st x _ hpx]
      rfl
    | some o =>
      cases o with
      | none =>
        rw [iterPar_succ_top st x _ hpx, iterPar_succ_top st x _ hpx]
        rfl
      | some q =>
        rw [iterPar_succ_par st x q _ hpx, iterPar_succ_par st x q _ hpx]
        exact ih q

theorem reaches_trans (st : Heap) (x y z : Nat) (h1 : Reaches st x y)
    (h2 : Reaches st y z) : Reaches st x z := by
  obtain ⟨m, hm⟩ := h1
  obtain ⟨n, hn⟩ := h2
  exact ⟨m + n, by rw [iterPar_add, hm]; simpa using hn⟩

theorem reaches_self (st : Heap) (x : Nat) : Reaches st x x := ⟨0, rfl⟩

theorem sreach_reaches (st : Heap) (x y : Nat) (h : SReach st x y) :
    Reaches st x y := by
  obtain ⟨n, _, hn⟩ := h
  exact ⟨n, hn⟩

theorem reaches_sreach_trans (st : Heap) (x y z : Nat) (h1 : Reaches st x y)
    (h2 : SReach st y z) : SReach st x z := by
  obtain ⟨m, hm⟩ := h1
  obtain ⟨n, hn0, hn⟩ := h2
  exact ⟨m + n, by omega, by rw [iterPar_add, hm]; simpa using hn⟩

theorem sreach_reaches_trans (st : Heap) (x y z : Nat) (h1 : SReach st x y)
    (h2 : Reaches st y z) : SReach st x z := by
  obtain ⟨m, hm0, hm⟩ := h1
  obtain ⟨n, hn⟩ := h2
  exact ⟨m + n, by omega, by rw [iterPar_add, hm]; simpa using hn⟩

/-- A single parent step. -/
theorem sreach_step (st : Heap) (x q : Nat)
    (h : parentOf st x = some (some q)) : SReach st x q :=
  ⟨1, Nat.one_pos, by rw [iterPar_succ_par st x q 0 h]; rfl⟩

/-- Walking up from a parentless entry immediately falls off. -/
theorem top_stops (st : Heap) (t : Nat) (ht : parentOf st t = some none)
    (n : Nat) (hn : 0 < n) : iterPar st n t = none := by
  cases n with
  | zero => omega
  | succ m => exact iterPar_succ_top st t m ht

/-- An acyclic heap has no strictly upward path from a node to itself. -/
theorem no_self_sreach (st : Heap) (hac : ∀ i, Terminates st i) (x : Nat) :
    ¬ SReach st x x := by
  rintro ⟨k, hk0, hk⟩
  obtain ⟨n, hn⟩ := hac x
  have hmul : ∀ j, iterPar st (j * k) x = some x := by
    intro j
    induction j with
    | zero => simp [iterPar]
    | succ j ih =>
      rw [show (j + 1) * k = j * k + k from by ring, iterPar_add, ih]
      simpa using hk
  have hjk : n ≤ n * k := by
    calc n = n * 1 := (Nat.mul_one n).symm
    _ ≤ n * k := Nat.mul_le_mul_left n hk0
  have h1 : iterPar st (n * k) x = some x := hmul n
  have h2 : iterPar st (n * k) x = none := by
    rw [show n * k = n + (n * k - n) from by omega, iterPar_add, hn]
    rfl
  rw [h1] at h2
  cases h2

/-- Two parentless entries on the same chain coincide. -/
theorem top_unique (st : Heap) (x t1 t2 : Nat) (h1 : Reaches st x t1)
    (ht1 : parentOf st t1 = some none) (h2 : Reaches st x t2)
    (ht2 : parentOf st t2 = some none) : t1 = t2 := by
  obtain ⟨m, hm⟩ := h1
  obtain ⟨n, hn⟩ := h2
  rcases Nat.le_total m n with h | h
  · have heq : iterPar st (n - m) t1 = some t2 := by
      have := iterPar_add st m (n - m) x
      rw [show m + (n - m) = n from by omega, hn, hm] at this
      simpa using this.symm
    rcases Nat.eq_zero_or_pos (n - m) with hz | hpos
    · rw [hz] at heq
      injection heq
    · rw [top_stops st t1 ht1 _ hpos] at heq
      cases heq
  · have heq : iterPar st (m - n) t2 = some t1 := by
      have := iterPar_add st n (m - n) x
      rw [show n + (m - n) = m from by omega, hm, hn] at this
      simpa using this.symm
    rcases Nat.eq_zero_or_pos (m - n) with hz | hpos
    · rw [hz] at heq
      injection heq
      omega
    · rw [top_stops st t2 ht2 _ hpos] at heq
      cases heq

/-- Chains survive into a new heap when no node on them changed parent. -/
theorem iterPar_persist (st st' : Heap) (x : Nat)
    (h : ∀ z, Reaches st x z → parentOf st' z = parentOf st z) :
    ∀ n, iterPar st' n x = iterPar st n x := by
  intro n
  induction n generalizing x with
  | zero => rfl
  | succ n ih =>
    have hx := h x (reaches_self st x)
    cases hpx : parentOf st x with
    | none =>
      rw [iterPar_succ_none st x _ hpx, iterPar_succ_none st' x _ (hpx ▸ hx)]
    | some o =>
      cases o with
      | none =>
        rw [iterPar_succ_top st x _ hpx, iterPar_succ_top st' x _ (hpx ▸ hx)]
      | some q =>
        rw [iterPar_succ_par st x q _ hpx, iterPar_succ_par st' x q _ (hpx ▸ hx)]
        exact ih q (fun z hz => h z (reaches_trans st x q z
          (sreach_reaches _ _ _ (sreach_step st x q hpx)) hz))

/-- Transfer of a chain from a modified heap back to the original: either the
chain was already there, or some changed node sits on an original prefix. -/
theorem iterPar_transfer (st st' : Heap) :
    ∀ (n x y : Nat), iterPar st' n x = some y →
      iterPar st n x = some y
        ∨ ∃ z, Reaches st x z ∧ parentOf st' z ≠ parentOf st z := by
  intro n
  induction n with
  | zero =>
    intro x y h
    exact Or.inl h
  | succ n ih =>
    intro x y h
    by_cases hx : parentOf st' x = parentOf st x
    · cases hpx : parentOf st x with
      | none =>
        rw [iterPar_succ_none st' x _ (hpx ▸ hx)] at h
        cases h
      | some o =>
        cases o with
        | none =>
          rw [iterPar_succ_top st' x _ (hpx ▸ hx)] at h
          cases h
        | some q =>
          rw [iterPar_succ_par st' x q _ (hpx ▸ hx)] at h
          rcases ih q y h with h2 | ⟨z, hz1, hz2⟩
          · left
            rw [iterPar_succ_par st x q _ hpx]
            exact h2
          · right
            exact ⟨z, reaches_trans st x q z
              (sreach_reaches _ _ _ (sreach_step st x q hpx)) hz1, hz2⟩
    · exact Or.inr ⟨x, reaches_self st x, hx⟩

/-- Termination survives when every change makes parents only more terminal. -/
theorem terminates_persist (st st' : Heap)
    (h : ∀ z, parentOf st' z = parentOf st z ∨ parentOf st' z = some none
      ∨ parentOf st' z = none) :
    ∀ x, Terminates st x → Terminates st' x := by
  have main : ∀ n x, iterPar st n x = none → Terminates st' x := by
    intro n
    induction n with
    | zero =>
      intro x hx
      cases hx
    | succ n ih =>
      intro x hx
      rcases h x with hx' | hx' | hx'
      · cases hpx : parentOf st x with
        | none => exact ⟨1, iterPar_succ_none st' x 0 (hpx ▸ hx')⟩
        | some o =>
          cases o with
          | none => exact ⟨1, iterPar_succ_top st' x 0 (hpx ▸ hx')⟩
          | some q =>
            rw [iterPar_succ_par st x q _ hpx] at hx
            obtain ⟨m, hm⟩ := ih q hx
            exact ⟨m + 1, by
              rw [show m + 1 = m + 1 from rfl, iterPar_succ_par st' x q m (hpx ▸ hx')]
              exact hm⟩
      · exact ⟨1, iterPar_succ_top st' x 0 hx'⟩
      · exact ⟨1, iterPar_succ_none st' x 0 hx'⟩
  rintro x ⟨n, hn⟩
  exact main n x hn

/-- In a well-formed heap every live entry sits below a parentless top. -/
theorem top_exists (st : Heap) (hwf : WF st) (x : Nat) (e : Entry)
    (hx : hget st x = some e) :
    ∃ t, Reaches st x t ∧ parentOf st t = some none := by
  obtain ⟨n, hn⟩ := hwf.acyclic x
  induction n generalizing x e with
  | zero => cases hn
  | succ n ih =>
    cases hpx : e.parent with
    | none =>
      exact ⟨x, reaches_self st x, by simp [parentOf, hx, hpx]⟩
    | some q =>
      obtain ⟨qe, hq, -⟩ := hwf.parentref x e q hx hpx
      have hpar : parentOf st x = some (some q) := by
        simp [parentOf, hx, hpx]
      have hq' : iterPar st n q = none := by
        rw [iterPar_succ_par st x q n hpar] at hn
        exact hn
      obtain ⟨t, ht1, ht2⟩ := ih q qe hq hq'
      exact ⟨t, reaches_trans st x q t
        (sreach_reaches _ _ _ (sreach_step st x q hpar)) ht1, ht2⟩

/-! ### `remove_child` preservation -/

/-- The three possible outcomes of `remove_child`: no-op, erase only (child
dangling or already reparented), or erase plus clearing the child's parent. -/
theorem removeChild_shape (st : Heap) (s c : Nat) :
    removeChild st s c = st
      ∨ ∃ se, hget st s = some se ∧ c ∈ se.children ∧
        ((removeChild st s c = hset st s { se with children := se.children.erase c }
            ∧ parentOf (hset st s { se with children := se.children.erase c }) c
              ≠ some (some s))
          ∨ ∃ ce1, hget (hset st s { se with children := se.children.erase c }) c
                = some ce1
              ∧ ce1.parent = some s
              ∧ removeChild st s c
                = hset (hset st s { se with children := se.children.erase c }) c
                    { ce1 with parent := none }) := by
  cases hs : hget st s with
  | none =>
    left
    unfold removeChild
    rw [hs]
  | some se =>
    by_cases hmem : c ∈ se.children
    · right
      refine ⟨se, rfl, hmem, ?_⟩
      have hrew : removeChild st s c
          = (match hget (hset st s { se with children := se.children.erase c }) c with
            | none => hset st s { se with children := se.children.erase c }
            | some c1 =>
              if c1.parent = some s then
                hset (hset st s { se with children := se.children.erase c }) c
                  { c1 with parent := none }
              else hset st s { se with children := se.children.erase c }) := by
        simp only [removeChild, hs]
        rw [if_pos hmem]
      cases hc1 : hget (hset st s { se with children := se.children.erase c }) c with
      | none =>
        left
        rw [hrew, hc1]
        exact ⟨rfl, by unfold parentOf; rw [hc1]; simp⟩
      | some ce1 =>
        by_cases hp1 : ce1.parent = some s
        · right
          refine ⟨ce1, rfl, hp1, ?_⟩
          rw [hrew, hc1]
          simp [hp1]
        · left
          refine ⟨?_, ?_⟩
          · rw [hrew, hc1]
            simp [hp1]
          · unfold parentOf
            rw [hc1]
            simpa using hp1
    · left
      simp only [removeChild, hs]
      rw [if_neg hmem]

/-- `remove_child` preserves the structural invariants and only touches the
receiver's children list and the removed child's parent pointer. -/
theorem removePost (st : Heap) (s c : Nat) (hwf : WF st) :
    WF (removeChild st s c)
      ∧ (∀ x, (hget (removeChild st s c) x).isSome = (hget st x).isSome)
      ∧ (∀ x, parentOf (removeChild st s c) x ≠ parentOf st x → x = c)
      ∧ (∀ x, (hget (removeChild st s c) x).map (fun e => e.children)
          ≠ (hget st x).map (fun e => e.children) → x = s)
      ∧ (∀ x, childrenOf (removeChild st s c) x ⊆ childrenOf st x) := by
  rcases removeChild_shape st s c with heq | ⟨se, hs, hmem, hcase⟩
  · rw [heq]
    exact ⟨hwf, fun x => rfl, fun x hx => absurd rfl hx, fun x hx => absurd rfl hx,
      fun x => List.Subset.refl _⟩
  rcases hcase with ⟨heq, hside⟩ | ⟨ce1, hc1, hp1, heq⟩
  · -- erase only
    have hget' : ∀ x, hget (removeChild st s c) x
        = if x = s then some { se with children := se.children.erase c }
          else hget st x := by
      intro x
      rw [heq, hget_hset]
    have hinv : ∀ x xe, hget (removeChild st s c) x = some xe →
        (x = s ∧ xe = { se with children := se.children.erase c })
          ∨ (x ≠ s ∧ hget st x = some xe) := by
      intro x xe hx
      rw [hget' x] at hx
      by_cases hxs : x = s
      · rw [if_pos hxs] at hx
        injection hx with hx
        exact Or.inl ⟨hxs, hx.symm⟩
      · rw [if_neg hxs] at hx
        exact Or.inr ⟨hxs, hx⟩
    have hentry : ∀ x xe, hget (removeChild st s c) x = some xe →
        ∃ xe0, hget st x = some xe0 ∧ xe0.parent = xe.parent
          ∧ xe.children ⊆ xe0.children := by
      intro x xe hx
      rcases hinv x xe hx with ⟨hxs, hxe⟩ | ⟨hxs, hxe⟩
      · refine ⟨se, by rw [hxs]; exact hs, by rw [hxe], ?_⟩
        rw [hxe]
        exact List.erase_subset _ _
      · exact ⟨xe, hxe, rfl, List.Subset.refl _⟩
    have hpar' : ∀ x, parentOf (removeChild st s c) x = parentOf st x := by
      intro x
      unfold parentOf
      rw [hget' x]
      by_cases hxs : x = s
      · rw [if_pos hxs, hxs, hs]
        rfl
      · rw [if_neg hxs]
    refine ⟨⟨?_, ?_, ?_, ?_, ?_⟩, ?_, ?_, ?_, ?_⟩
    · -- backref
      intro p pe x xe hp hxmem hx
      obtain ⟨xe0, hx0, hpeq, -⟩ := hentry x xe hx
      rw [← hpeq]
      rcases hinv p pe hp with ⟨hps, hpe⟩ | ⟨hps, hpe⟩
      · have hxmem' : x ∈ se.children := by
          rw [hpe] at hxmem
          exact List.mem_of_mem_erase (by simpa using hxmem)
        rw [hps]
        exact hwf.backref s se x xe0 hs hxmem' hx0
      · exact hwf.backref p pe x xe0 hpe hxmem hx0
    · -- parentref
      intro x xe q hx hxpar
      obtain ⟨xe0, hx0, hpeq, -⟩ := hentry x xe hx
      have hx0par : xe0.parent = some q := by rw [hpeq, hxpar]
      obtain ⟨qe, hq, hqmem⟩ := hwf.parentref x xe0 q hx0 hx0par
      by_cases hqs : q = s
      · have hqe : qe = se := by
          rw [hqs] at hq
          rw [hq] at hs
          injection hs
      -- `x` cannot be the removed child, else its parent pointer would still
      -- point at `s`, contradicting the side condition of this branch
        have hxc : x ≠ c := by
          intro hxceq
          apply hside
          have h1 : xe0.parent = some s := by rw [hx0par, hqs]
          unfold parentOf
          rw [hget_hset]
          by_cases hcs : c = s
          · rw [if_pos hcs]
            have hxe0 : xe0 = se := by
              rw [hxceq, hcs] at hx0
              rw [hx0] at hs
              injection hs
            rw [← hxe0] at *
            simp [h1]
          · rw [if_neg hcs]
            rw [hxceq] at hx0
            rw [hx0]
            simp [h1]
        refine ⟨{ se with children := se.children.erase c },
          by rw [hget' q, if_pos hqs], ?_⟩
        have hqmem' : x ∈ se.children := by
          rw [← hqe]
          exact hqmem
        simpa using (List.mem_erase_of_ne hxc).mpr hqmem'
      · exact ⟨qe, by rw [hget' q, if_neg hqs]; exact hq, hqmem⟩
    · -- childNodup
      intro p pe hp
      rcases hinv p pe hp with ⟨hps, hpe⟩ | ⟨hps, hpe⟩
      · rw [hpe]
        exact List.Nodup.erase c (hwf.childNodup s se hs)
      · exact hwf.childNodup p pe hpe
    · -- ownership
      intro p pe q qe x hp hq hxp hxq
      obtain ⟨pe0, hp0, -, hpsub⟩ := hentry p pe hp
      obtain ⟨qe0, hq0, -, hqsub⟩ := hentry q qe hq
      exact hwf.ownership p pe0 q qe0 x hp0 hq0 (hpsub hxp) (hqsub hxq)
    · -- acyclic
      intro i
      exact terminates_persist st (removeChild st s c)
        (fun z => Or.inl (hpar' z)) i (hwf.acyclic i)
    · intro x
      rw [hget' x]
      by_cases hxs : x = s
      · rw [if_pos hxs, hxs, hs]
        rfl
      · rw [if_neg hxs]
    · intro x hx
      exact absurd (hpar' x) hx
    · intro x hx
      rw [hget' x] at hx
      by_cases hxs : x = s
      · exact hxs
      · rw [if_neg hxs] at hx
        exact absurd rfl hx
    · intro x
      unfold childrenOf
      rw [hget' x]
      by_cases hxs : x = s
      · rw [if_pos hxs, hxs, hs]
        simpa using List.erase_subset _ _
      · rw [if_neg hxs]
        exact List.Subset.refl _
  · -- erase plus parent clear
    have hget2 : ∀ x, hget (removeChild st s c) x
        = if x = c then some { ce1 with parent := none }
          else if x = s then some { se with children := se.children.erase c }
          else hget st x := by
      intro x
      rw [heq, hget_hset, hget_hset]
    have hce1 : (c = s ∧ ce1 = { se with children := se.children.erase c })
        ∨ (c ≠ s ∧ hget st c = some ce1) := by
      rw [hget_hset] at hc1
      by_cases hcs : c = s
      · rw [if_pos hcs] at hc1
        injection hc1 with hc1
        exact Or.inl ⟨hcs, hc1.symm⟩
      · rw [if_neg hcs] at hc1
        exact Or.inr ⟨hcs, hc1⟩
    have hinv : ∀ x xe, hget (removeChild st s c) x = some xe →
        (x = c ∧ xe = { ce1 with parent := none })
          ∨ (x ≠ c ∧ x = s ∧ xe = { se with children := se.children.erase c })
          ∨ (x ≠ c ∧ x ≠ s ∧ hget st x = some xe) := by
      intro x xe hx
      rw [hget2 x] at hx
      by_cases hxc : x = c
      · rw [if_pos hxc] at hx
        injection hx with hx
        exact Or.inl ⟨hxc, hx.symm⟩
      · rw [if_neg hxc] at hx
        by_cases hxs : x = s
        · rw [if_pos hxs] at hx
          injection hx with hx
          exact Or.inr (Or.inl ⟨hxc, hxs, hx.symm⟩)
        · rw [if_neg hxs] at hx
          exact Or.inr (Or.inr ⟨hxc, hxs, hx⟩)
    have hentry : ∀ x xe, hget (removeChild st s c) x = some xe →
        ∃ xe0, hget st x = some xe0
          ∧ (xe0.parent = xe.parent ∨ (x = c ∧ xe.parent = none))
          ∧ xe.children ⊆ xe0.children := by
      intro x xe hx
      rcases hinv x xe hx with ⟨hxc, hxe⟩ | ⟨hxc, hxs, hxe⟩ | ⟨hxc, hxs, hxe⟩
      · rcases hce1 with ⟨hcs, hc1e⟩ | ⟨hcs, hc1e⟩
        · refine ⟨se, by rw [hxc, hcs]; exact hs, Or.inr ⟨hxc, by rw [hxe]⟩, ?_⟩
          rw [hxe, hc1e]
          simpa using List.erase_subset _ _
        · refine ⟨ce1, by rw [hxc]; exact hc1e, Or.inr ⟨hxc, by rw [hxe]⟩, ?_⟩
          rw [hxe]
          exact List.Subset.refl _
      · refine ⟨se, by rw [hxs]; exact hs, Or.inl (by rw [hxe]), ?_⟩
        rw [hxe]
        exact List.erase_subset _ _
      · exact ⟨xe, hxe, Or.inl rfl, List.Subset.refl _⟩
    have hparmap : ∀ x, x ≠ c →
        parentOf (removeChild st s c) x = parentOf st x := by
      intro x hxc
      unfold parentOf
      rw [hget2 x, if_neg hxc]
      by_cases hxs : x = s
      · rw [if_pos hxs, hxs, hs]
        rfl
      · rw [if_neg hxs]
    have hparc : parentOf (removeChild st s c) c = some none := by
      unfold parentOf
      rw [hget2 c, if_pos rfl]
      rfl
    -- `c` survives nowhere as a listed child
    have hcnone : ∀ p pe, hget (removeChild st s c) p = some pe →
        c ∉ pe.children := by
      intro p pe hp hcy
      obtain ⟨pe0, hp0, -, hpsub⟩ := hentry p pe hp
      have hps : p = s := hwf.ownership p pe0 s se c hp0 hs (hpsub hcy) hmem
      have hcnoterase : c ∉ se.children.erase c :=
        fun hh => absurd rfl ((hwf.childNodup s se hs).mem_erase_iff.mp hh).1
      rcases hinv p pe hp with ⟨hpc, hpe⟩ | ⟨hpc, hps2, hpe⟩ | ⟨hpc, hps2, hpe⟩
      · rcases hce1 with ⟨hcs, hc1e⟩ | ⟨hcs, hc1e⟩
        · apply hcnoterase
          rw [hpe, hc1e] at hcy
          simpa using hcy
        · exact hcs (by rw [← hpc, hps])
      · apply hcnoterase
        rw [hpe] at hcy
        simpa using hcy
      · exact hps2 hps
    refine ⟨⟨?_, ?_, ?_, ?_, ?_⟩, ?_, ?_, ?_, ?_⟩
    · -- backref
      intro p pe x xe hp hxmem hx
      by_cases hxc : x = c
      · rw [hxc] at hxmem
        exact absurd hxmem (hcnone p pe hp)
      · obtain ⟨xe0, hx0, hpeq, -⟩ := hentry x xe hx
        rcases hpeq with hpeq | ⟨hxc2, -⟩
        · rw [← hpeq]
          obtain ⟨pe0, hp0, -, hpsub⟩ := hentry p pe hp
          exact hwf.backref p pe0 x xe0 hp0 (hpsub hxmem) hx0
        · exact absurd hxc2 hxc
    · -- parentref
      intro x xe q hx hxpar
      by_cases hxc : x = c
      · exfalso
        have hxx : parentOf (removeChild st s c) x = some xe.parent := by
          unfold parentOf
          rw [hx]
          rfl
        rw [hxc] at hxx
        rw [hparc] at hxx
        injection hxx with hxx
        rw [← hxx] at hxpar
        cases hxpar
      · obtain ⟨xe0, hx0, hpeq, -⟩ := hentry x xe hx
        rcases hpeq with hpeq | ⟨hxc2, -⟩
        · obtain ⟨qe0, hq0, hqmem⟩ := hwf.parentref x xe0 q hx0
            (by rw [hpeq, hxpar])
          by_cases hqc : q = c
          · refine ⟨{ ce1 with parent := none },
              by rw [hget2 q, if_pos hqc], ?_⟩
            rcases hce1 with ⟨hcs, hc1e⟩ | ⟨hcs, hc1e⟩
            · have hqe0 : qe0 = se := by
                rw [hqc, hcs] at hq0
                rw [hq0] at hs
                injection hs
              have hqmem' : x ∈ se.children := by
                rw [← hqe0]
                exact hqmem
              have hgoal : x ∈ se.children.erase c :=
                (List.mem_erase_of_ne hxc).mpr hqmem'
              rw [hc1e]
              simpa using hgoal
            · have hqe0 : qe0 = ce1 := by
                rw [hqc] at hq0
                rw [hq0] at hc1e
                injection hc1e
              rw [← hqe0]
              simpa using hqmem
          · by_cases hqs : q = s
            · refine ⟨{ se with children := se.children.erase c },
                by rw [hget2 q, if_neg hqc, if_pos hqs], ?_⟩
              have hqe0 : qe0 = se := by
                rw [hqs] at hq0
                rw [hq0] at hs
                injection hs
              have hqmem' : x ∈ se.children := by
                rw [← hqe0]
                exact hqmem
              simpa using (List.mem_erase_of_ne hxc).mpr hqmem'
            · exact ⟨qe0, by rw [hget2 q, if_neg hqc, if_neg hqs]; exact hq0,
                hqmem⟩
        · exact absurd hxc2 hxc
    · -- childNodup
      intro p pe hp
      rcases hinv p pe hp with ⟨hpc, hpe⟩ | ⟨hpc, hps, hpe⟩ | ⟨hpc, hps, hpe⟩
      · rcases hce1 with ⟨hcs, hc1e⟩ | ⟨hcs, hc1e⟩
        · rw [hpe, hc1e]
          simpa using List.Nodup.erase c (hwf.childNodup s se hs)
        · rw [hpe]
          simpa using hwf.childNodup c ce1 hc1e
      · rw [hpe]
        exact List.Nodup.erase c (hwf.childNodup s se hs)
      · exact hwf.childNodup p pe hpe
    · -- ownership
      intro p pe q qe x hp hq hxp hxq
      obtain ⟨pe0, hp0, -, hpsub⟩ := hentry p pe hp
      obtain ⟨qe0, hq0, -, hqsub⟩ := hentry q qe hq
      exact hwf.ownership p pe0 q qe0 x hp0 hq0 (hpsub hxp) (hqsub hxq)
    · -- acyclic
      intro i
      refine terminates_persist st (removeChild st s c) ?_ i (hwf.acyclic i)
      intro z
      by_cases hzc : z = c
      · rw [hzc]
        exact Or.inr (Or.inl hparc)
      · exact Or.inl (hparmap z hzc)
    · intro x
      rw [hget2 x]
      by_cases hxc : x = c
      · rw [if_pos hxc, hxc]
        rcases hce1 with ⟨hcs, -⟩ | ⟨-, hc1e⟩
        · rw [hcs, hs]
          rfl
        · rw [hc1e]
          rfl
      · rw [if_neg hxc]
        by_cases hxs : x = s
        · rw [if_pos hxs, hxs, hs]
          rfl
        · rw [if_neg hxs]
    · intro x hx
      by_cases hxc : x = c
      · exact hxc
      · exact absurd (hparmap x hxc) hx
    · intro x hx
      rw [hget2 x] at hx
      by_cases hxc : x = c
      · rw [hxc]
        rcases hce1 with ⟨hcs, -⟩ | ⟨hcs, hc1e⟩
        · exact hcs
        · exfalso
          rw [if_pos hxc, hxc, hc1e] at hx
          simp at hx
      · rw [if_neg hxc] at hx
        by_cases hxs : x = s
        · exact hxs
        · rw [if_neg hxs] at hx
          exact absurd rfl hx
    · intro x
      unfold childrenOf
      rw [hget2 x]
      by_cases hxc : x = c
      · rw [if_pos hxc, hxc]
        rcases hce1 with ⟨hcs, hc1e⟩ | ⟨hcs, hc1e⟩
        · rw [hcs, hs]
          rw [hc1e]
          simp only [Option.map_some, Option.getD_some]
          simpa using List.erase_subset _ _
        · rw [hc1e]
          simp
      · rw [if_neg hxc]
        by_cases hxs : x = s
        · rw [if_pos hxs, hxs, hs]
          simpa using List.erase_subset _ _
        · rw [if_neg hxs]
          exact List.Subset.refl _

/-- When the child still points at the receiver, `remove_child` really clears
its parent pointer. -/
theorem removeChild_detach (st : Heap) (s c : Nat) (ce : Entry) (hwf : WF st)
    (hc : hget st c = some ce) (hpar : ce.parent = some s) :
    parentOf (removeChild st s c) c = some none := by
  have hcs : c ≠ s := by
    intro hcs
    refine no_self_sreach st hwf.acyclic c (sreach_step st c c ?_)
    unfold parentOf
    rw [hc]
    simp [hpar, hcs]
  obtain ⟨se, hs, hmem⟩ := hwf.parentref c ce s hc hpar
  have h1 : hget (hset st s { se with children := se.children.erase c }) c
      = some ce := by
    rw [hget_hset_ne st s _ c hcs]
    exact hc
  have hres : removeChild st s c
      = hset (hset st s { se with children := se.children.erase c }) c
          { ce with parent := none } := by
    simp only [removeChild, hs, h1]
    rw [if_pos hmem, if_pos hpar]
  rw [hres]
  unfold parentOf
  rw [hget_hset_self]
  rfl

/-- A detached entry is listed in nobody's children. -/
theorem detached_not_child (st : Heap) (hwf : WF st) (c : Nat) (ce : Entry)
    (hc : hget st c = some ce) (hpar : ce.parent = none) :
    ∀ p pe, hget st p = some pe → c ∉ pe.children := by
  intro p pe hp hmem
  have hb := hwf.backref p pe c ce hp hmem hc
  rw [hpar] at hb
  cases hb

/-- The attach step of `add_child` (`new_child.parent = self;
self.children.append(new_child)`) preserves the invariants provided the child
is detached and the receiver does not sit inside the child's subtree. -/
theorem attachPost (st : Heap) (p c : Nat) (pe ce : Entry) (hwf : WF st)
    (hp : hget st p = some pe) (hc : hget st c = some ce)
    (hcpar : ce.parent = none) (hnr : ¬ Reaches st p c) :
    WF (hset (hset st c { ce with parent := some p }) p
        { pe with children := pe.children ++ [c] })
      ∧ (∀ x, (hget (hset (hset st c { ce with parent := some p }) p
          { pe with children := pe.children ++ [c] }) x).isSome
            = (hget st x).isSome)
      ∧ (∀ x, parentOf (hset (hset st c { ce with parent := some p }) p
          { pe with children := pe.children ++ [c] }) x ≠ parentOf st x → x = c)
      ∧ (∀ x, (hget (hset (hset st c { ce with parent := some p }) p
          { pe with children := pe.children ++ [c] }) x).map (fun e => e.children)
            ≠ (hget st x).map (fun e => e.children) → x = p)
      ∧ parentOf (hset (hset st c { ce with parent := some p }) p
          { pe with children := pe.children ++ [c] }) c = some (some p) := by
  have hpc : p ≠ c := fun h => hnr (h ▸ reaches_self st p)
  have hget5 : ∀ x, hget (hset (hset st c { ce with parent := some p }) p
      { pe with children := pe.children ++ [c] }) x
      = if x = p then some { pe with children := pe.children ++ [c] }
        else if x = c then some { ce with parent := some p }
        else hget st x := by
    intro x
    rw [hget_hset, hget_hset]
  have hinv : ∀ x xe, hget (hset (hset st c { ce with parent := some p }) p
      { pe with children := pe.children ++ [c] }) x = some xe →
      (x = p ∧ xe = { pe with children := pe.children ++ [c] })
        ∨ (x ≠ p ∧ x = c ∧ xe = { ce with parent := some p })
        ∨ (x ≠ p ∧ x ≠ c ∧ hget st x = some xe) := by
    intro x xe hx
    rw [hget5 x] at hx
    by_cases hxp : x = p
    · rw [if_pos hxp] at hx
      injection hx with hx
      exact Or.inl ⟨hxp, hx.symm⟩
    · rw [if_neg hxp] at hx
      by_cases hxc : x = c
      · rw [if_pos hxc] at hx
        injection hx with hx
        exact Or.inr (Or.inl ⟨hxp, hxc, hx.symm⟩)
      · rw [if_neg hxc] at hx
        exact Or.inr (Or.inr ⟨hxp, hxc, hx⟩)
  have hcnotin : ∀ y ye, hget st y = some ye → c ∉ ye.children :=
    detached_not_child st hwf c ce hc hcpar
  have hparmap : ∀ x, x ≠ c → parentOf (hset (hset st c
      { ce with parent := some p }) p
      { pe with children := pe.children ++ [c] }) x = parentOf st x := by
    intro x hxc
    unfold parentOf
    rw [hget5 x]
    by_cases hxp : x = p
    · rw [if_pos hxp, hxp, hp]
      rfl
    · rw [if_neg hxp, if_neg hxc]
  have hparc : parentOf (hset (hset st c { ce with parent := some p }) p
      { pe with children := pe.children ++ [c] }) c = some (some p) := by
    unfold parentOf
    rw [hget5 c, if_neg (fun h => hpc h.symm), if_pos rfl]
    rfl
  refine ⟨⟨?_, ?_, ?_, ?_, ?_⟩, ?_, ?_, ?_, hparc⟩
  · -- backref
    intro p1 pe1 x xe hp1 hxmem hx
    rcases hinv p1 pe1 hp1 with ⟨hp1p, hpe1⟩ | ⟨hp1p, hp1c, hpe1⟩ | ⟨hp1p, hp1c, hpe1⟩
    · -- receiver is the new parent
      rw [hpe1] at hxmem
      simp only [List.mem_append, List.mem_singleton] at hxmem
      rcases hxmem with hxmem | hxc
      · -- an old child of p keeps its pointer
        have hxnec : x ≠ c := fun h => hcnotin p pe hp (h ▸ hxmem)
        rcases hinv x xe hx with ⟨hxp, hxe⟩ | ⟨-, hxc2, -⟩ | ⟨-, -, hxe⟩
        · rw [hxe]
          rw [hp1p]
          have := hwf.backref p pe x pe hp hxmem (by rw [hxp]; exact hp)
          simpa using this
        · exact absurd hxc2 hxnec
        · rw [hp1p]
          exact hwf.backref p pe x xe hp hxmem hxe
      · -- the appended child points at p
        rcases hinv x xe hx with ⟨hxp, -⟩ | ⟨-, -, hxe⟩ | ⟨-, hxc2, -⟩
        · exact absurd (by rw [← hxp]; exact hxc) hpc
        · rw [hxe, hp1p]
        · exact absurd hxc hxc2
    · -- receiver is the attached child: its children list is unchanged
      rw [hpe1] at hxmem
      simp only at hxmem
      have hxnec : x ≠ c := fun h => hcnotin c ce hc (h ▸ hxmem)
      have hxnep : x ≠ p := by
        intro hxep
        apply hnr
        have := hwf.backref c ce x pe hc hxmem (by rw [hxep]; exact hp)
        exact sreach_reaches _ _ _ (sreach_step st p c
          (by unfold parentOf; rw [hp]; simp [this, hxep]))
      rcases hinv x xe hx with ⟨hxp, -⟩ | ⟨-, hxc2, -⟩ | ⟨-, -, hxe⟩
      · exact absurd hxp hxnep
      · exact absurd hxc2 hxnec
      · rw [hp1c]
        exact hwf.backref c ce x xe hc hxmem hxe
    · -- untouched receiver
      have hxnec : x ≠ c := fun h => hcnotin p1 pe1 hpe1 (h ▸ hxmem)
      rcases hinv x xe hx with ⟨hxp, hxe⟩ | ⟨-, hxc2, -⟩ | ⟨-, -, hxe⟩
      · rw [hxe]
        have := hwf.backref p1 pe1 x pe hpe1 hxmem (by rw [hxp]; exact hp)
        simpa using this
      · exact absurd hxc2 hxnec
      · exact hwf.backref p1 pe1 x xe hpe1 hxmem hxe
  · -- parentref
    intro x xe q hx hxpar
    rcases hinv x xe hx with ⟨hxp, hxe⟩ | ⟨hxp, hxc, hxe⟩ | ⟨hxp, hxc, hxe⟩
    · -- x = p: parent pointer unchanged
      have hq : pe.parent = some q := by
        rw [hxe] at hxpar
        exact hxpar
      have hqnec : q ≠ c := by
        intro hqc
        apply hnr
        exact sreach_reaches _ _ _ (sreach_step st p c
          (by unfold parentOf; rw [hp]; simp [hq, hqc]))
      obtain ⟨qe, hq0, hqmem⟩ := hwf.parentref p pe q hp hq
      by_cases hqp : q = p
      · refine ⟨{ pe with children := pe.children ++ [c] },
          by rw [hget5 q, if_pos hqp], ?_⟩
        have hqe : qe = pe := by
          rw [hqp] at hq0
          rw [hq0] at hp
          injection hp
        simp only [List.mem_append, List.mem_singleton]
        left
        rw [hxp, ← hqe]
        exact hqmem
      · refine ⟨qe, by rw [hget5 q, if_neg hqp, if_neg hqnec]; exact hq0, ?_⟩
        rw [hxp]
        exact hqmem
    · -- x = c: the new pointer targets p, and c now sits in p's list
      have hq : q = p := by
        rw [hxe] at hxpar
        simp at hxpar
        exact hxpar.symm
      refine ⟨{ pe with children := pe.children ++ [c] },
        by rw [hget5 q, if_pos hq], ?_⟩
      simp [hxc]
    · -- untouched x
      obtain ⟨qe, hq0, hqmem⟩ := hwf.parentref x xe q hxe hxpar
      by_cases hqp : q = p
      · refine ⟨{ pe with children := pe.children ++ [c] },
          by rw [hget5 q, if_pos hqp], ?_⟩
        have hqe : qe = pe := by
          rw [hqp] at hq0
          rw [hq0] at hp
          injection hp
        simp only [List.mem_append]
        left
        rw [← hqe]
        exact hqmem
      · by_cases hqc : q = c
        · refine ⟨{ ce with parent := some p },
            by rw [hget5 q, if_neg hqp, if_pos hqc], ?_⟩
          have hqe : qe = ce := by
            rw [hqc] at hq0
            rw [hq0] at hc
            injection hc
          rw [← hqe]
          simpa using hqmem
        · exact ⟨qe, by rw [hget5 q, if_neg hqp, if_neg hqc]; exact hq0, hqmem⟩
  · -- childNodup
    intro p1 pe1 hp1
    rcases hinv p1 pe1 hp1 with ⟨-, hpe1⟩ | ⟨-, -, hpe1⟩ | ⟨-, -, hpe1⟩
    · rw [hpe1]
      simp only [List.nodup_append, List.nodup_singleton]
      exact ⟨hwf.childNodup p pe hp, by simp, by
        intro a ha hb
        simp only [List.mem_singleton] at hb
        exact hcnotin p pe hp (hb ▸ ha)⟩
    · rw [hpe1]
      simpa using hwf.childNodup c ce hc
    · exact hwf.childNodup p1 pe1 hpe1
  · -- ownership
    intro p1 pe1 q1 qe1 x hp1 hq1 hxp1 hxq1
    have hmemmap : ∀ y ye, hget (hset (hset st c { ce with parent := some p }) p
        { pe with children := pe.children ++ [c] }) y = some ye →
        x ∈ ye.children → (x = c ∧ y = p) ∨
          (∃ ye0, hget st y = some ye0 ∧ x ∈ ye0.children) := by
      intro y ye hy hxy
      rcases hinv y ye hy with ⟨hyp, hye⟩ | ⟨-, hyc, hye⟩ | ⟨-, -, hye⟩
      · rw [hye] at hxy
        simp only [List.mem_append, List.mem_singleton] at hxy
        rcases hxy with hxy | hxy
        · exact Or.inr ⟨pe, by rw [← hyp] at hp; exact hp, hxy⟩
        · exact Or.inl ⟨hxy, hyp⟩
      · rw [hye] at hxy
        simp only at hxy
        exact Or.inr ⟨ce, by rw [hyc]; exact hc, hxy⟩
      · exact Or.inr ⟨ye, hye, hxy⟩
    rcases hmemmap p1 pe1 hp1 hxp1 with ⟨hxc, hp1p⟩ | ⟨pe0, hp0, hxp0⟩
    · rcases hmemmap q1 qe1 hq1 hxq1 with ⟨-, hq1p⟩ | ⟨qe0, hq0, hxq0⟩
      · rw [hp1p, hq1p]
      · exact absurd (hxc ▸ hxq0) (hcnotin q1 qe0 hq0)
    · rcases hmemmap q1 qe1 hq1 hxq1 with ⟨hxc, -⟩ | ⟨qe0, hq0, hxq0⟩
      · exact absurd (hxc ▸ hxp0) (hcnotin p1 pe0 hp0)
      · exact hwf.ownership p1 pe0 q1 qe0 x hp0 hq0 hxp0 hxq0
  · -- acyclic
    have hpterm : ∀ n, iterPar (hset (hset st c { ce with parent := some p }) p
        { pe with children := pe.children ++ [c] }) n p = iterPar st n p := by
      apply iterPar_persist
      intro z hz
      have hznec : z ≠ c := fun h => hnr (h ▸ hz)
      exact hparmap z hznec
    have hkey : ∀ n x, iterPar st n x = none →
        Terminates (hset (hset st c { ce with parent := some p }) p
          { pe with children := pe.children ++ [c] }) x := by
      intro n
      induction n with
      | zero =>
        intro x hx
        cases hx
      | succ n ih =>
        intro x hx
        by_cases hxc : x = c
        · obtain ⟨m, hm⟩ := hwf.acyclic p
          refine ⟨m + 1, ?_⟩
          rw [iterPar_succ_par _ x p m (by rw [hxc]; exact hparc), hpterm m, hm]
        · cases hpx : parentOf st x with
          | none =>
            exact ⟨1, iterPar_succ_none _ x 0 (by rw [hparmap x hxc]; exact hpx)⟩
          | some o =>
            cases o with
            | none =>
              exact ⟨1, iterPar_succ_top _ x 0 (by rw [hparmap x hxc]; exact hpx)⟩
            | some q =>
              rw [iterPar_succ_par st x q _ hpx] at hx
              obtain ⟨m, hm⟩ := ih q hx
              exact ⟨m + 1, by
                rw [iterPar_succ_par _ x q m (by rw [hparmap x hxc]; exact hpx)]
                exact hm⟩
    intro i
    obtain ⟨n, hn⟩ := hwf.acyclic i
    exact hkey n i hn
  · intro x
    rw [hget5 x]
    by_cases hxp : x = p
    · rw [if_pos hxp, hxp, hp]
      rfl
    · rw [if_neg hxp]
      by_cases hxc : x = c
      · rw [if_pos hxc, hxc, hc]
        rfl
      · rw [if_neg hxc]
  · intro x hx
    by_cases hxc : x = c
    · exact hxc
    · exact absurd (hparmap x hxc) hx
  · intro x hx
    rw [hget5 x] at hx
    by_cases hxp : x = p
    · exact hxp
    · rw [if_neg hxp] at hx
      by_cases hxc : x = c
      · exfalso
        rw [if_pos hxc, hxc, hc] at hx
        simp at hx
      · rw [if_neg hxc] at hx
        exact absurd rfl hx

/-! ## Claim C5: invariant preservation by the mutators -/

theorem hget_cons (k : Nat) (v : Entry) (tl : Heap) (j : Nat) :
    hget ((k, v) :: tl) j = if j = k then some v else hget tl j := by
  by_cases h : j = k
  · rw [if_pos h]
    unfold hget
    rw [List.find?_cons_of_pos _ (by simp [h])]
    rfl
  · rw [if_neg h]
    unfold hget
    rw [List.find?_cons_of_neg _ (by simp only [beq_iff_eq]; exact Ne.symm h)]

theorem reaches_cases (st : Heap) (x y : Nat) (h : Reaches st x y) :
    x = y ∨ SReach st x y := by
  obtain ⟨n, hn⟩ := h
  cases n with
  | zero =>
    injection hn with hn
    exact Or.inl hn
  | succ m => exact Or.inr ⟨m + 1, Nat.succ_pos m, hn⟩

/-- A parentless entry reaches only itself. -/
theorem detached_reaches (st : Heap) (x y : Nat) (h : parentOf st x = some none)
    (hr : Reaches st x y) : y = x := by
  obtain ⟨n, hn⟩ := hr
  cases n with
  | zero =>
    injection hn with hn
    exact hn.symm
  | succ m =>
    rw [iterPar_succ_top st x m h] at hn
    cases hn

/-- Parent chains are deterministic: a node on the chain from `x` to a top `t`
itself reaches `t`. -/
theorem chain_det (st : Heap) (x y t : Nat) (hxy : Reaches st x y)
    (hxt : Reaches st x t) (ht : parentOf st t = some none) : Reaches st y t := by
  obtain ⟨m, hm⟩ := hxy
  obtain ⟨n, hn⟩ := hxt
  rcases Nat.le_total m n with h | h
  · refine ⟨n - m, ?_⟩
    have hadd := iterPar_add st m (n - m) x
    rw [show m + (n - m) = n from by omega, hn, hm] at hadd
    simpa using hadd.symm
  · have heq : iterPar st (m - n) t = some y := by
      have hadd := iterPar_add st n (m - n) x
      rw [show n + (m - n) = m from by omega, hm, hn] at hadd
      simpa using hadd.symm
    rcases Nat.eq_zero_or_pos (m - n) with hz | hpos
    · rw [hz] at heq
      injection heq with heq
      exact ⟨0, by rw [heq]; rfl⟩
    · rw [top_stops st t ht _ hpos] at heq
      cases heq

/-- A self-referential parent pointer loops forever. -/
theorem selfpar_iterPar (st : Heap) (x : Nat) (h : parentOf st x = some (some x)) :
    ∀ n, iterPar st n x = some x := by
  intro n
  induction n with
  | zero => rfl
  | succ m ih =>
    rw [iterPar_succ_par st x x m h]
    exact ih

/-- Counterexample heap for C5: a root (id 0) with one chapter child (id 1). -/
def exC5root : Entry :=
  ⟨Cls.cmRoot, "ICD-10-CM", "root", none, [1], some "2022"⟩

def exC5chap : Entry :=
  ⟨Cls.cmChapter, "I", "chapter I", some 0, [], none⟩

def exC5heap : Heap := [(0, exC5root), (1, exC5chap)]

/-- The heap produced by `chapter.add_child(chapter)` on `exC5heap`: the
chapter ends up as its own parent and own child. -/
def exC5bad : Heap :=
  [(0, { exC5root with children := [] }),
   (1, { exC5chap with parent := some 1, children := [1] })]

theorem exC5heap_get (j : Nat) :
    hget exC5heap j
      = if j = 0 then some exC5root
        else if j = 1 then some exC5chap else none := by
  unfold exC5heap
  rw [hget_cons, hget_cons]
  rfl

theorem exC5heap_wf : WF exC5heap := by
  constructor
  · intro p pe c ce hp hmem hc
    rw [exC5heap_get] at hp
    by_cases hp0 : p = 0
    · rw [if_pos hp0] at hp
      injection hp with hp
      rw [← hp] at hmem
      have hc1 : c = 1 := by simpa [exC5root] using hmem
      rw [exC5heap_get, if_neg (by omega), if_pos hc1] at hc
      injection hc with hc
      rw [← hc, hp0]
      rfl
    · rw [if_neg hp0] at hp
      by_cases hp1 : p = 1
      · rw [if_pos hp1] at hp
        injection hp with hp
        rw [← hp] at hmem
        simp [exC5chap] at hmem
      · rw [if_neg hp1] at hp
        cases hp
  · intro c ce q hc hcq
    rw [exC5heap_get] at hc
    by_cases hc0 : c = 0
    · rw [if_pos hc0] at hc
      injection hc with hc
      rw [← hc] at hcq
      cases hcq
    · rw [if_neg hc0] at hc
      by_cases hc1 : c = 1
      · rw [if_pos hc1] at hc
        injection hc with hc
        rw [← hc] at hcq
        have hq0 : q = 0 := by
          have : some (0 : Nat) = some q := hcq
          injection this with h
          exact h.symm
        refine ⟨exC5root, ?_, ?_⟩
        · rw [hq0]
          rfl
        · rw [hc1]
          simp [exC5root]
      · rw [if_neg hc1] at hc
        cases hc
  · intro p pe hp
    rw [exC5heap_get] at hp
    by_cases hp0 : p = 0
    · rw [if_pos hp0] at hp
      injection hp with hp
      rw [← hp]
      simp [exC5root]
    · rw [if_neg hp0] at hp
      by_cases hp1 : p = 1
      · rw [if_pos hp1] at hp
        injection hp with hp
        rw [← hp]
        simp [exC5chap]
      · rw [if_neg hp1] at hp
        cases hp
  · intro p pe q qe c hp hq hcp hcq
    rw [exC5heap_get] at hp
    rw [exC5heap_get] at hq
    by_cases hp0 : p = 0
    · rw [if_pos hp0] at hp
      by_cases hq0 : q = 0
      · rw [hp0, hq0]
      · rw [if_neg hq0] at hq
        by_cases hq1 : q = 1
        · rw [if_pos hq1] at hq
          injection hq with hq
          rw [← hq] at hcq
          simp [exC5chap] at hcq
        · rw [if_neg hq1] at hq
          cases hq
    · rw [if_neg hp0] at hp
      by_cases hp1 : p = 1
      · rw [if_pos hp1] at hp
        injection hp with hp
        rw [← hp] at hcp
        simp [exC5chap] at hcp
      · rw [if_neg hp1] at hp
        cases hp
  · intro i
    by_cases hi0 : i = 0
    · exact ⟨1, iterPar_succ_top _ i 0 (by rw [hi0]; rfl)⟩
    · by_cases hi1 : i = 1
      · refine ⟨2, ?_⟩
        rw [hi1, iterPar_succ_par exC5heap 1 0 1 rfl]
        exact iterPar_succ_top _ 0 0 rfl
      · refine ⟨1, iterPar_succ_none _ i 0 ?_⟩
        unfold parentOf
        rw [exC5heap_get, if_neg hi0, if_neg hi1]
        rfl

/-- C5 counterexample: the spec claims `add_child` preserves the structural
invariants for arbitrary arguments, including an entry's ancestor or the entry
itself. Calling `chapter.add_child(chapter)` on a well-formed two-entry codex
first unlinks the chapter from the root and then makes it its own parent and
own child, a parent-pointer cycle: acyclicity (and with it "every chain
reaches a parentless root") is destroyed, so the claim's "arbitrary entry
arguments, including the entry itself" quantification is refuted. -/
theorem C5_counterexample :
    WF exC5heap
      ∧ addChild 5 exC5heap 1 1 = some exC5bad
      ∧ parentOf exC5bad 1 = some (some 1)
      ∧ ¬ WF exC5bad := by
  refine ⟨exC5heap_wf, by decide, rfl, ?_⟩
  intro hwf
  obtain ⟨n, hn⟩ := hwf.acyclic 1
  rw [selfpar_iterPar exC5bad 1 rfl n] at hn
  cases hn

/-! ### Change-set bookkeeping for `add_child` -/

/-- Ids whose parent pointer a call `p.add_child(c)` may touch: the new child
itself, or a node strictly below `p` or strictly below `c`. -/
def PDiff (st : Heap) (p c x : Nat) : Prop :=
  x = c ∨ SReach st x p ∨ SReach st x c

/-- Ids whose children list a call `p.add_child(c)` may touch: a node weakly
below `p` or `c`, or a node on `c`'s upward chain (its old parent). -/
def CDiff (st : Heap) (p c x : Nat) : Prop :=
  Reaches st x p ∨ Reaches st x c ∨ Reaches st c x

theorem pdiff_up (st : Heap) (p c x z : Nat) (hxz : Reaches st x z)
    (hz : PDiff st p c z) : PDiff st p c x := by
  rcases hz with hz | hz | hz
  · rcases reaches_cases st x z hxz with h | h
    · exact Or.inl (h.trans hz)
    · rw [hz] at h
      exact Or.inr (Or.inr h)
  · exact Or.inr (Or.inl (reaches_sreach_trans st x z p hxz hz))
  · exact Or.inr (Or.inr (reaches_sreach_trans st x z c hxz hz))

theorem cdiff_of_reach_pdiff (st : Heap) (p c x z : Nat) (hxz : Reaches st x z)
    (hz : PDiff st p c z) : CDiff st p c x := by
  rcases hz with hz | hz | hz
  · rw [hz] at hxz
    exact Or.inr (Or.inl hxz)
  · exact Or.inl (reaches_trans st x z p hxz (sreach_reaches st z p hz))
  · exact Or.inr (Or.inl (reaches_trans st x z c hxz (sreach_reaches st z c hz)))

theorem sreach_back (st st1 : Heap) (x y : Nat) (h : SReach st1 x y) :
    SReach st x y ∨ ∃ z, Reaches st x z ∧ parentOf st1 z ≠ parentOf st z := by
  obtain ⟨n, hn0, hn⟩ := h
  rcases iterPar_transfer st st1 n x y hn with h2 | ⟨z, hz1, hz2⟩
  · exact Or.inl ⟨n, hn0, h2⟩
  · exact Or.inr ⟨z, hz1, hz2⟩

theorem reaches_back (st st1 : Heap) (x y : Nat) (h : Reaches st1 x y) :
    Reaches st x y ∨ ∃ z, Reaches st x z ∧ parentOf st1 z ≠ parentOf st z := by
  obtain ⟨n, hn⟩ := h
  rcases iterPar_transfer st st1 n x y hn with h2 | ⟨z, hz1, hz2⟩
  · exact Or.inl ⟨n, h2⟩
  · exact Or.inr ⟨z, hz1, hz2⟩

theorem pdiff_back (st st1 : Heap) (p c : Nat)
    (hpf : ∀ z, parentOf st1 z ≠ parentOf st z → PDiff st p c z) (x : Nat)
    (hx : PDiff st1 p c x) : PDiff st p c x := by
  rcases hx with hx | hx | hx
  · exact Or.inl hx
  · rcases sreach_back st st1 x p hx with h | ⟨z, hz1, hz2⟩
    · exact Or.inr (Or.inl h)
    · exact pdiff_up st p c x z hz1 (hpf z hz2)
  · rcases sreach_back st st1 x c hx with h | ⟨z, hz1, hz2⟩
    · exact Or.inr (Or.inr h)
    · exact pdiff_up st p c x z hz1 (hpf z hz2)

theorem cdiff_back (st st1 : Heap) (p c T : Nat) (hac : ∀ i, Terminates st i)
    (hpT : Reaches st p T) (hcT : ¬ Reaches st c T)
    (hpf : ∀ z, parentOf st1 z ≠ parentOf st z → PDiff st p c z)
    (hcp : parentOf st1 c = parentOf st c) (x : Nat)
    (hx : CDiff st1 p c x) : CDiff st p c x := by
  rcases hx with hx | hx | hx
  · rcases reaches_back st st1 x p hx with h | ⟨z, hz1, hz2⟩
    · exact Or.inl h
    · exact cdiff_of_reach_pdiff st p c x z hz1 (hpf z hz2)
  · rcases reaches_back st st1 x c hx with h | ⟨z, hz1, hz2⟩
    · exact Or.inr (Or.inl h)
    · exact cdiff_of_reach_pdiff st p c x z hz1 (hpf z hz2)
  · rcases reaches_back st st1 c x hx with h | ⟨z, hz1, hz2⟩
    · exact Or.inr (Or.inr h)
    · rcases hpf z hz2 with h | h | h
      · rw [h] at hz2
        exact absurd hcp hz2
      · exact absurd (reaches_trans st c p T
          (reaches_trans st c z p hz1 (sreach_reaches st z p h)) hpT) hcT
      · exact absurd (reaches_sreach_trans st c z c hz1 h)
          (no_self_sreach st hac c)

/-- Re-establish the separation hypotheses of `add_child` after a step whose
parent changes stay inside `PDiff` and which leaves `c`'s parent alone. -/
theorem frame_reestablish (st st1 : Heap) (p c T : Nat)
    (hac : ∀ i, Terminates st i) (hT : parentOf st T = some none)
    (hpT : Reaches st p T) (hcT : ¬ Reaches st c T)
    (hpf : ∀ z, parentOf st1 z ≠ parentOf st z → PDiff st p c z)
    (hcp : parentOf st1 c = parentOf st c) :
    parentOf st1 T = some none ∧ Reaches st1 p T ∧ ¬ Reaches st1 c T := by
  have hTkeep : parentOf st1 T = parentOf st T := by
    by_contra hne
    rcases hpf T hne with h | h | h
    · exact hcT (by rw [h]; exact reaches_self st c)
    · obtain ⟨n, hn0, hn⟩ := h
      rw [top_stops st T hT n hn0] at hn
      cases hn
    · obtain ⟨n, hn0, hn⟩ := h
      rw [top_stops st T hT n hn0] at hn
      cases hn
  refine ⟨by rw [hTkeep]; exact hT, ?_, ?_⟩
  · have hpersist : ∀ n, iterPar st1 n p = iterPar st n p := by
      apply iterPar_persist
      intro z hz
      by_contra hne
      rcases hpf z hne with h | h | h
      · rw [h] at hz
        exact hcT (chain_det st p c T hz hpT hT)
      · exact no_self_sreach st hac p (reaches_sreach_trans st p z p hz h)
      · exact hcT (chain_det st p c T
          (reaches_trans st p z c hz (sreach_reaches st z c h)) hpT hT)
    obtain ⟨n, hn⟩ := hpT
    exact ⟨n, by rw [hpersist n]; exact hn⟩
  · rintro ⟨n, hn⟩
    rcases iterPar_transfer st st1 n c T hn with h | ⟨z, hz1, hz2⟩
    · exact hcT ⟨n, h⟩
    · rcases hpf z hz2 with h | h | h
      · rw [h] at hz2
        exact hz2 hcp
      · exact hcT (reaches_trans st c p T
          (reaches_trans st c z p hz1 (sreach_reaches st z p h)) hpT)
      · exact no_self_sreach st hac c (reaches_sreach_trans st c z c hz1 h)

/-- `should_contain` only answers on live receiver and argument. -/
theorem shouldContain_alive (st : Heap) (a b : Nat) (v : Bool)
    (h : shouldContain st a b = some v) :
    ∃ ae be, hget st a = some ae ∧ hget st b = some be := by
  cases ha : hget st a with
  | none =>
    cases hb : hget st b with
    | none =>
      simp only [shouldContain, ha, hb] at h
      exact Option.noConfusion h
    | some be =>
      simp only [shouldContain, ha, hb] at h
      exact Option.noConfusion h
  | some ae =>
    cases hb : hget st b with
    | none =>
      simp only [shouldContain, ha, hb] at h
      exact Option.noConfusion h
    | some be => exact ⟨ae, be, rfl, rfl⟩

/-- A listed child's parent pointer, as a chain step. -/
theorem child_step (st : Heap) (hwf : WF st) (p : Nat) (pe : Entry) (b : Nat)
    (hp : hget st p = some pe) (hb : b ∈ pe.children) (be : Entry)
    (hbe : hget st b = some be) : parentOf st b = some (some p) := by
  unfold parentOf
  rw [hbe]
  simp only [Option.map_some']
  rw [hwf.backref p pe b be hp hb hbe]

/-- Common postcondition of the mutators of `add_child`: well-formedness, the
same ids stay live, and parent/children changes stay inside the change sets. -/
abbrev MutPost (st st' : Heap) (p c : Nat) : Prop :=
  WF st'
    ∧ (∀ x, (hget st' x).isSome = (hget st x).isSome)
    ∧ (∀ x, parentOf st' x ≠ parentOf st x → PDiff st p c x)
    ∧ (∀ x, (hget st' x).map (fun e => e.children)
        ≠ (hget st x).map (fun e => e.children) → CDiff st p c x)

/-- Induction statement for `addChild`: under the separation hypothesis (the
receiver sits under a parentless top the new child does not reach), the
invariants are preserved. -/
abbrev AddChildPost (fuel : Nat) : Prop :=
  ∀ st p c T st', WF st → parentOf st T = some none → Reaches st p T →
    ¬ Reaches st c T → addChild fuel st p c = some st' → MutPost st st' p c

/-- Induction statement for `addLoop`; when the loop falls through, the new
child's parent pointer is untouched. -/
abbrev AddLoopPost (fuel : Nat) : Prop :=
  ∀ st p c i T st' early, WF st → parentOf st T = some none →
    Reaches st p T → ¬ Reaches st c T →
    addLoop fuel st p c i = some (st', early) →
    MutPost st st' p c ∧ (early = false → parentOf st' c = parentOf st c)

theorem mutPost_refl (st : Heap) (p c : Nat) (hwf : WF st) : MutPost st st p c :=
  ⟨hwf, fun _ => rfl, fun _ hx => absurd rfl hx, fun _ hx => absurd rfl hx⟩

/-- A postcondition relative to a child `b` of `p` is also one relative to
`p`. -/
theorem mutPost_widen (st st2 : Heap) (p b c : Nat)
    (hbp : parentOf st b = some (some p)) (h : MutPost st st2 b c) :
    MutPost st st2 p c := by
  obtain ⟨hwf2, ha, hpf, hcf⟩ := h
  have hbP : Reaches st b p := sreach_reaches st b p (sreach_step st b p hbp)
  refine ⟨hwf2, ha, ?_, ?_⟩
  · intro x hx
    rcases hpf x hx with h | h | h
    · exact Or.inl h
    · exact Or.inr (Or.inl (sreach_reaches_trans st x b p h hbP))
    · exact Or.inr (Or.inr h)
  · intro x hx
    rcases hcf x hx with h | h | h
    · exact Or.inl (reaches_trans st x b p h hbP)
    · exact Or.inr (Or.inl h)
    · exact Or.inr (Or.inr h)

/-- Compose two postconditions when the middle heap leaves the child's parent
pointer alone. -/
theorem mutPost_trans (st st1 st2 : Heap) (p c T : Nat)
    (hac : ∀ i, Terminates st i) (hpT : Reaches st p T)
    (hcT : ¬ Reaches st c T) (hcp1 : parentOf st1 c = parentOf st c)
    (h1 : MutPost st st1 p c) (h2 : MutPost st1 st2 p c) :
    MutPost st st2 p c := by
  obtain ⟨hwf1, ha1, hp1, hc1⟩ := h1
  obtain ⟨hwf2, ha2, hp2, hc2⟩ := h2
  refine ⟨hwf2, fun x => (ha2 x).trans (ha1 x), ?_, ?_⟩
  · intro x hx
    by_cases hmid : parentOf st1 x = parentOf st x
    · exact pdiff_back st st1 p c hp1 x (hp2 x (fun h => hx (h.trans hmid)))
    · exact hp1 x hmid
  · intro x hx
    by_cases hmid : (hget st1 x).map (fun e => e.children)
        = (hget st x).map (fun e => e.children)
    · exact cdiff_back st st1 p c T hac hpT hcT hp1 hcp1 x
        (hc2 x (fun h => hx (h.trans hmid)))
    · exact hc1 x hmid

/-- `should_contain` never answers `True` for the receiver itself. -/
theorem shouldContain_ne (st : Heap) (a b : Nat)
    (h : shouldContain st a b = some true) : a ≠ b := by
  intro hab
  rw [hab] at h
  obtain ⟨ae, be, ha, hb⟩ := shouldContain_alive st b b true h
  cases hacls : ae.cls
  all_goals simp [shouldContain, ha, hacls] at h

theorem alive_some (st st' : Heap) (x : Nat)
    (ha : (hget st' x).isSome = (hget st x).isSome) (e : Entry)
    (hx : hget st x = some e) : ∃ e', hget st' x = some e' := by
  have hs : (hget st' x).isSome = true := by
    rw [ha, hx]
    rfl
  exact Option.isSome_iff_exists.mp hs

/-- Convert the postcondition of the re-homing step `new_child.add_child(b)`
(run after `self.remove_child(b)` detached the absorbed sibling `b`) back to
the calling frame. -/
theorem branchb_convert (st st2 st3 : Heap) (p c b T : Nat)
    (_hac : ∀ i, Terminates st i) (hac2 : ∀ i, Terminates st2 i)
    (hpT : Reaches st p T) (hcT : ¬ Reaches st c T)
    (hbp : parentOf st b = some (some p))
    (hrm : MutPost st st2 p c)
    (hp2f : ∀ z, parentOf st2 z ≠ parentOf st z → z = b)
    (hbdet : parentOf st2 b = some none)
    (h3 : MutPost st2 st3 c b) :
    MutPost st st3 p c ∧ parentOf st3 c = parentOf st c := by
  obtain ⟨hwf2, ha2, hpf2, hcf2⟩ := hrm
  obtain ⟨hwf3, ha3, hpf3, hcf3⟩ := h3
  have hbSp : SReach st b p := sreach_step st b p hbp
  have hbP : Reaches st b p := sreach_reaches st b p hbSp
  have hbc : b ≠ c := by
    intro h
    rw [h] at hbP
    exact hcT (reaches_trans st c p T hbP hpT)
  have hcb : ¬ Reaches st c b := by
    intro h
    exact hcT (reaches_trans st c p T (reaches_trans st c b p h hbP) hpT)
  have hpd : ∀ x, parentOf st3 x ≠ parentOf st x → PDiff st p c x := by
    intro x hx
    by_cases hmid : parentOf st2 x = parentOf st x
    · have hx3 : parentOf st3 x ≠ parentOf st2 x := fun h => hx (h.trans hmid)
      rcases hpf3 x hx3 with h | h | h
      · rw [h]
        exact Or.inr (Or.inl hbSp)
      · rcases sreach_back st st2 x c h with h2 | ⟨z, hz1, hz2⟩
        · exact Or.inr (Or.inr h2)
        · rw [hp2f z hz2] at hz1
          rcases reaches_cases st x b hz1 with h4 | h4
          · rw [h4]
            exact Or.inr (Or.inl hbSp)
          · exact Or.inr (Or.inl (sreach_reaches_trans st x b p h4 hbP))
      · rcases sreach_back st st2 x b h with h2 | ⟨z, hz1, hz2⟩
        · exact Or.inr (Or.inl (sreach_reaches_trans st x b p h2 hbP))
        · rw [hp2f z hz2] at hz1
          rcases reaches_cases st x b hz1 with h4 | h4
          · rw [h4]
            exact Or.inr (Or.inl hbSp)
          · exact Or.inr (Or.inl (sreach_reaches_trans st x b p h4 hbP))
    · exact hpf2 x hmid
  have hcp2 : parentOf st2 c = parentOf st c := by
    by_contra hne
    exact hbc (hp2f c hne).symm
  have hcp : parentOf st3 c = parentOf st c := by
    by_cases hne : parentOf st3 c = parentOf st2 c
    · exact hne.trans hcp2
    · exfalso
      rcases hpf3 c hne with h | h | h
      · exact hbc h.symm
      · exact no_self_sreach st2 hac2 c h
      · rcases sreach_back st st2 c b h with h2 | ⟨z, hz1, hz2⟩
        · exact hcb (sreach_reaches st c b h2)
        · rw [hp2f z hz2] at hz1
          exact hcb hz1
  refine ⟨⟨hwf3, fun x => (ha3 x).trans (ha2 x), hpd, ?_⟩, hcp⟩
  intro x hx
  by_cases hmid : (hget st2 x).map (fun e => e.children)
      = (hget st x).map (fun e => e.children)
  · have hx3 : (hget st3 x).map (fun e => e.children)
        ≠ (hget st2 x).map (fun e => e.children) := fun h => hx (h.trans hmid)
    rcases hcf3 x hx3 with h | h | h
    · rcases reaches_back st st2 x c h with h2 | ⟨z, hz1, hz2⟩
      · exact Or.inr (Or.inl h2)
      · rw [hp2f z hz2] at hz1
        exact Or.inl (reaches_trans st x b p hz1 hbP)
    · rcases reaches_back st st2 x b h with h2 | ⟨z, hz1, hz2⟩
      · exact Or.inl (reaches_trans st x b p h2 hbP)
      · rw [hp2f z hz2] at hz1
        exact Or.inl (reaches_trans st x b p hz1 hbP)
    · rw [detached_reaches st2 b x hbdet h]
      exact Or.inl hbP
  · exact hcf2 x hmid

/-- One step of the mutual induction: the sibling-nesting loop. -/
theorem addLoop_step (fuel : Nat) (ihA : AddChildPost fuel)
    (ihL : AddLoopPost fuel) : AddLoopPost (fuel + 1) := by
  intro st p c i T st' early hwf hT hpT hcT hadd
  cases hp : hget st p with
  | none =>
    simp only [addLoop, hp] at hadd
    exact Option.noConfusion hadd
  | some s =>
    simp only [addLoop, hp] at hadd
    by_cases hilen : i < s.children.length
    · rw [dif_pos hilen] at hadd
      have hbmem : s.children.get ⟨i, hilen⟩ ∈ s.children :=
        List.get_mem _ _ _
      set b := s.children.get ⟨i, hilen⟩ with hbdef
      split at hadd
      · exact Option.noConfusion hadd
      · -- absorb branch: b.add_child(new_child); return
        rename_i hsc1
        split at hadd
        · exact Option.noConfusion hadd
        · rename_i st2 hinner
          injection hadd with hadd
          obtain ⟨hst, hearly⟩ := Prod.mk.injEq _ _ _ _ ▸ hadd
          rw [← hst, ← hearly]
          obtain ⟨be0, ce0, hbe0, hce0⟩ := shouldContain_alive st b c true hsc1
          have hbp : parentOf st b = some (some p) :=
            child_step st hwf p s b hp hbmem be0 hbe0
          have hbT : Reaches st b T := reaches_trans st b p T
            (sreach_reaches st b p (sreach_step st b p hbp)) hpT
          have hposti := ihA st b c T st2 hwf hT hbT hcT hinner
          exact ⟨mutPost_widen st st2 p b c hbp hposti,
            fun hf => Bool.noConfusion hf⟩
      · -- not absorbed: check the reverse containment
        rename_i hsc1
        split at hadd
        · exact Option.noConfusion hadd
        · -- re-home branch: self.remove_child(b); new_child.add_child(b)
          rename_i hsc2
          split at hadd
          · exact Option.noConfusion hadd
          · rename_i st3 hinner
            obtain ⟨ce0, be0, hce0, hbe0⟩ := shouldContain_alive st c b true hsc2
            have hcneb : c ≠ b := shouldContain_ne st c b hsc2
            have hbp : parentOf st b = some (some p) :=
              child_step st hwf p s b hp hbmem be0 hbe0
            have hbeP : be0.parent = some p :=
              hwf.backref p s b be0 hp hbmem hbe0
            have hbSp : SReach st b p := sreach_step st b p hbp
            obtain ⟨hwf2, ha2, hpf2, hcf2, hsub2⟩ := removePost st p b hwf
            have hdet : parentOf (removeChild st p b) b = some none :=
              removeChild_detach st p b be0 hwf hbe0 hbeP
            have hrmpost : MutPost st (removeChild st p b) p c := by
              refine ⟨hwf2, ha2, ?_, ?_⟩
              · intro x hx
                rw [hpf2 x hx]
                exact Or.inr (Or.inl hbSp)
              · intro x hx
                rw [hcf2 x hx]
                exact Or.inl (reaches_self st p)
            obtain ⟨ce2, hce2⟩ :=
              alive_some st (removeChild st p b) c (ha2 c) ce0 hce0
            obtain ⟨Tc, hcTc, hTcTop⟩ :=
              top_exists (removeChild st p b) hwf2 c ce2 hce2
            have hnrb : ¬ Reaches (removeChild st p b) b Tc := by
              intro hr
              have hbT : Reaches st b T := reaches_trans st b p T
                (sreach_reaches st b p hbSp) hpT
              rw [detached_reaches (removeChild st p b) b Tc hdet hr] at hcTc
              rcases reaches_back st (removeChild st p b) c b hcTc with
                h2 | ⟨z, hz1, hz2⟩
              · exact hcT (reaches_trans st c b T h2 hbT)
              · rw [hpf2 z hz2] at hz1
                exact hcT (reaches_trans st c b T hz1 hbT)
            have hinnerPost := ihA (removeChild st p b) c b Tc st3 hwf2
              hTcTop hcTc hnrb hinner
            obtain ⟨hpost3, hcp3⟩ := branchb_convert st (removeChild st p b)
              st3 p c b T hwf.acyclic hwf2.acyclic hpT hcT hbp hrmpost hpf2
              hdet hinnerPost
            obtain ⟨hT3, hpT3, hcT3⟩ := frame_reestablish st st3 p c T
              hwf.acyclic hT hpT hcT hpost3.2.2.1 hcp3
            obtain ⟨hpostTail, hcpTail⟩ := ihL st3 p c (i + 1) T st' early
              hpost3.1 hT3 hpT3 hcT3 hadd
            refine ⟨mutPost_trans st st3 st' p c T hwf.acyclic hpT hcT hcp3
              hpost3 hpostTail, ?_⟩
            intro hearly
            rw [hcpTail hearly]
            exact hcp3
        · -- neither contains the other: plain skip
          exact ihL st p c (i + 1) T st' early hwf hT hpT hcT hadd
    · rw [dif_neg hilen] at hadd
      injection hadd with hadd
      obtain ⟨hst, hearly⟩ := Prod.mk.injEq _ _ _ _ ▸ hadd
      rw [← hst, ← hearly]
      exact ⟨mutPost_refl st p c hwf, fun _ => rfl⟩

/-- One step of the mutual induction: `add_child` itself. -/
theorem addChild_step (fuel : Nat) (_ihA : AddChildPost fuel)
    (ihL : AddLoopPost fuel) : AddChildPost (fuel + 1) := by
  intro st p c T st' hwf hT hpT hcT hadd
  cases hp : hget st p with
  | none =>
    cases hc : hget st c with
    | none =>
      simp only [addChild, hp, hc] at hadd
      exact Option.noConfusion hadd
    | some n =>
      simp only [addChild, hp, hc] at hadd
      exact Option.noConfusion hadd
  | some s =>
    cases hc : hget st c with
    | none =>
      simp only [addChild, hp, hc] at hadd
      exact Option.noConfusion hadd
    | some n =>
      simp only [addChild, hp, hc] at hadd
      by_cases hroot : n.cls.isRootCls = true
      · rw [if_pos hroot] at hadd
        injection hadd with hadd
        rw [← hadd]
        exact mutPost_refl st p c hwf
      · rw [if_neg hroot] at hadd
        by_cases hmem : c ∈ s.children
        · rw [if_pos hmem] at hadd
          injection hadd with hadd
          rw [← hadd]
          exact mutPost_refl st p c hwf
        · rw [if_neg hmem] at hadd
          split at hadd
          · exact Option.noConfusion hadd
          · -- the loop returned early: its heap is the result
            rename_i st2 heq
            injection hadd with hadd
            rw [← hadd]
            split at heq
            · exact (ihL st p c 0 T st2 true hwf hT hpT hcT heq).1
            · injection heq with heq
              exact absurd (congrArg Prod.snd heq) (by simp)
          · -- the loop fell through: unlink from the old parent and attach
            rename_i st2 heq
            have hloop : MutPost st st2 p c
                ∧ parentOf st2 c = parentOf st c := by
              split at heq
              · have h := ihL st p c 0 T st2 false hwf hT hpT hcT heq
                exact ⟨h.1, h.2 rfl⟩
              · injection heq with heq
                have hst : st = st2 := congrArg Prod.fst heq
                rw [← hst]
                exact ⟨mutPost_refl st p c hwf, rfl⟩
            obtain ⟨⟨hwf2, ha2, hpf2, hcf2⟩, hcp2⟩ := hloop
            obtain ⟨hT2, hpT2, hcT2⟩ := frame_reestablish st st2 p c T
              hwf.acyclic hT hpT hcT hpf2 hcp2
            have hnp2c : ¬ Reaches st2 p c :=
              fun hr => hcT2 (chain_det st2 p c T hr hpT2 hT2)
            have hpc : p ≠ c := fun h => hnp2c (by rw [h]; exact reaches_self st2 c)
            split at hadd
            · exact Option.noConfusion hadd
            · rename_i n2 hn2
              have hpar2 : parentOf st2 c = some n2.parent := by
                unfold parentOf
                rw [hn2]
                rfl
              cases hq : n2.parent with
              | some q =>
                rw [hq] at hadd
                simp only [] at hadd
                rw [hq] at hpar2
                obtain ⟨hwf3, ha3, hpf3, hcf3, hsub3⟩ := removePost st2 q c hwf2
                have hdet3 : parentOf (removeChild st2 q c) c = some none :=
                  removeChild_detach st2 q c n2 hwf2 hn2 hq
                have hpers3 : ∀ m, iterPar (removeChild st2 q c) m p
                    = iterPar st2 m p := by
                  apply iterPar_persist
                  intro z hz
                  by_contra hne
                  rw [hpf3 z hne] at hz
                  exact hnp2c hz
                have hnr3 : ¬ Reaches (removeChild st2 q c) p c := by
                  rintro ⟨m, hm⟩
                  rw [hpers3 m] at hm
                  exact hnp2c ⟨m, hm⟩
                split at hadd
                · exact Option.noConfusion hadd
                · rename_i n3 hn3
                  have hn3p : n3.parent = none := by
                    unfold parentOf at hdet3
                    rw [hn3] at hdet3
                    simp only [Option.map_some'] at hdet3
                    injection hdet3
                  split at hadd
                  · exact Option.noConfusion hadd
                  · rename_i s4 hs4
                    rw [hget_hset_ne _ _ _ _ hpc] at hs4
                    obtain ⟨hwfF, haF, hpfF, hcfF, hparF⟩ :=
                      attachPost (removeChild st2 q c) p c s4 n3 hwf3 hs4
                        hn3 hn3p hnr3
                    injection hadd with hadd
                    rw [← hadd]
                    refine ⟨hwfF, fun x => (haF x).trans ((ha3 x).trans (ha2 x)),
                      ?_, ?_⟩
                    · intro x hx
                      by_cases h1 : parentOf st2 x = parentOf st x
                      · by_cases h2 : parentOf (removeChild st2 q c) x
                            = parentOf st2 x
                        · have h3 : parentOf (hset (hset (removeChild st2 q c) c
                              { n3 with parent := some p }) p
                              { s4 with children := s4.children ++ [c] }) x
                              ≠ parentOf (removeChild st2 q c) x :=
                            fun h => hx (((h.trans h2).trans h1))
                          exact Or.inl (hpfF x h3)
                        · exact Or.inl (hpf3 x h2)
                      · exact hpf2 x h1
                    · intro x hx
                      by_cases h1 : (hget st2 x).map (fun e => e.children)
                          = (hget st x).map (fun e => e.children)
                      · by_cases h2 : (hget (removeChild st2 q c) x).map
                            (fun e => e.children)
                            = (hget st2 x).map (fun e => e.children)
                        · have h3 : (hget (hset (hset (removeChild st2 q c) c
                              { n3 with parent := some p }) p
                              { s4 with children := s4.children ++ [c] }) x).map
                              (fun e => e.children)
                              ≠ (hget (removeChild st2 q c) x).map
                                (fun e => e.children) :=
                            fun h => hx (((h.trans h2).trans h1))
                          rw [hcfF x h3]
                          exact Or.inl (reaches_self st p)
                        · rw [hcf3 x h2]
                          have hcq : parentOf st c = some (some q) := by
                            rw [← hcp2]
                            exact hpar2
                          exact Or.inr (Or.inr (sreach_reaches st c q
                            (sreach_step st c q hcq)))
                      · exact hcf2 x h1
              | none =>
                rw [hq] at hadd
                simp only [] at hadd
                rw [hq] at hpar2
                split at hadd
                · exact Option.noConfusion hadd
                · rename_i n3 hn3
                  have hn3e : n3 = n2 := by
                    rw [hn2] at hn3
                    injection hn3 with hn3
                    exact hn3.symm
                  have hn3p : n3.parent = none := by
                    rw [hn3e]
                    exact hq
                  split at hadd
                  · exact Option.noConfusion hadd
                  · rename_i s4 hs4
                    rw [hget_hset_ne _ _ _ _ hpc] at hs4
                    obtain ⟨hwfF, haF, hpfF, hcfF, hparF⟩ :=
                      attachPost st2 p c s4 n3 hwf2 hs4 hn3 hn3p hnp2c
                    injection hadd with hadd
                    rw [← hadd]
                    refine ⟨hwfF, fun x => (haF x).trans (ha2 x), ?_, ?_⟩
                    · intro x hx
                      by_cases h1 : parentOf st2 x = parentOf st x
                      · have h3 : parentOf (hset (hset st2 c
                            { n3 with parent := some p }) p
                            { s4 with children := s4.children ++ [c] }) x
                            ≠ parentOf st2 x := fun h => hx (h.trans h1)
                        exact Or.inl (hpfF x h3)
                      · exact hpf2 x h1
                    · intro x hx
                      by_cases h1 : (hget st2 x).map (fun e => e.children)
                          = (hget st x).map (fun e => e.children)
                      · have h3 : (hget (hset (hset st2 c
                            { n3 with parent := some p }) p
                            { s4 with children := s4.children ++ [c] }) x).map
                            (fun e => e.children)
                            ≠ (hget st2 x).map (fun e => e.children) :=
                          fun h => hx (h.trans h1)
                        rw [hcfF x h3]
                        exact Or.inl (reaches_self st p)
                      · exact hcf2 x h1

/-- The postconditions hold at every fuel. -/
theorem addPost : ∀ fuel : Nat, AddChildPost fuel ∧ AddLoopPost fuel := by
  intro fuel
  induction fuel with
  | zero =>
    constructor
    · intro st p c T st' _ _ _ _ hadd
      exact Option.noConfusion hadd
    · intro st p c i T st' early _ _ _ _ hadd
      exact Option.noConfusion hadd
  | succ fuel ih =>
    exact ⟨addChild_step fuel ih.1 ih.2, addLoop_step fuel ih.1 ih.2⟩

/-- C5 (amended): on a well-formed heap, `remove_child` preserves the
structural invariants (bidirectional parent/child consistency, duplicate-free
single ownership, acyclic parent chains) for arbitrary arguments, and
`add_child` preserves them provided the receiver sits under a parentless top
that the new child does not reach — i.e. the new child comes from outside the
receiver's tree, so it is in particular neither the receiver itself nor one of
its ancestors. The spec's unrestricted quantification "including an entry's
ancestor or the entry itself" is refuted by `C5_counterexample`. -/
theorem C5_amended (st : Heap) (hwf : WF st) :
    (∀ s c, WF (removeChild st s c))
      ∧ (∀ fuel p c T st', parentOf st T = some none → Reaches st p T →
          ¬ Reaches st c T → addChild fuel st p c = some st' → WF st') := by
  refine ⟨fun s c => (removePost st s c hwf).1, ?_⟩
  intro fuel p c T st' hT hpT hcT hadd
  exact ((addPost fuel).1 st p c T st' hwf hT hpT hcT hadd).1

/-- Witness heap: the two-entry codex plus a detached category (id 2). -/
def exC5cat : Entry :=
  ⟨Cls.cmCategory, "A00", "a category", none, [], none⟩

def exC5wit : Heap := [(0, exC5root), (1, exC5chap), (2, exC5cat)]

/-- The heap after `chapter.add_child(category)` on `exC5wit`. -/
def exC5wit' : Heap :=
  [(0, exC5root), (1, { exC5chap with children := [2] }),
   (2, { exC5cat with parent := some 1 })]

theorem exC5wit_get (j : Nat) :
    hget exC5wit j
      = if j = 0 then some exC5root
        else if j = 1 then some exC5chap
        else if j = 2 then some exC5cat else none := by
  unfold exC5wit
  rw [hget_cons, hget_cons, hget_cons]
  rfl

theorem exC5wit_wf : WF exC5wit := by
  constructor
  · intro p pe c ce hp hmem hc
    rw [exC5wit_get] at hp
    by_cases hp0 : p = 0
    · rw [if_pos hp0] at hp
      injection hp with hp
      rw [← hp] at hmem
      have hc1 : c = 1 := by simpa [exC5root] using hmem
      rw [exC5wit_get, if_neg (by omega), if_pos hc1] at hc
      injection hc with hc
      rw [← hc, hp0]
      rfl
    · rw [if_neg hp0] at hp
      by_cases hp1 : p = 1
      · rw [if_pos hp1] at hp
        injection hp with hp
        rw [← hp] at hmem
        simp [exC5chap] at hmem
      · rw [if_neg hp1] at hp
        by_cases hp2 : p = 2
        · rw [if_pos hp2] at hp
          injection hp with hp
          rw [← hp] at hmem
          simp [exC5cat] at hmem
        · rw [if_neg hp2] at hp
          cases hp
  · intro c ce q hc hcq
    rw [exC5wit_get] at hc
    by_cases hc0 : c = 0
    · rw [if_pos hc0] at hc
      injection hc with hc
      rw [← hc] at hcq
      cases hcq
    · rw [if_neg hc0] at hc
      by_cases hc1 : c = 1
      · rw [if_pos hc1] at hc
        injection hc with hc
        rw [← hc] at hcq
        have hq0 : q = 0 := by
          have h : some (0 : Nat) = some q := hcq
          injection h with h
          exact h.symm
        refine ⟨exC5root, ?_, ?_⟩
        · rw [hq0]
          rfl
        · rw [hc1]
          simp [exC5root]
      · rw [if_neg hc1] at hc
        by_cases hc2 : c = 2
        · rw [if_pos hc2] at hc
          injection hc with hc
          rw [← hc] at hcq
          cases hcq
        · rw [if_neg hc2] at hc
          cases hc
  · intro p pe hp
    rw [exC5wit_get] at hp
    by_cases hp0 : p = 0
    · rw [if_pos hp0] at hp
      injection hp with hp
      rw [← hp]
      simp [exC5root]
    · rw [if_neg hp0] at hp
      by_cases hp1 : p = 1
      · rw [if_pos hp1] at hp
        injection hp with hp
        rw [← hp]
        simp [exC5chap]
      · rw [if_neg hp1] at hp
        by_cases hp2 : p = 2
        · rw [if_pos hp2] at hp
          injection hp with hp
          rw [← hp]
          simp [exC5cat]
        · rw [if_neg hp2] at hp
          cases hp
  · intro p pe q qe c hp hq hcp hcq
    rw [exC5wit_get] at hp
    rw [exC5wit_get] at hq
    have hmem0 : ∀ r re, (if r = 0 then some exC5root
        else if r = 1 then some exC5chap
        else if r = 2 then some exC5cat else none) = some re →
        c ∈ re.children → r = 0 := by
      intro r re hr hcr
      by_cases hr0 : r = 0
      · exact hr0
      · rw [if_neg hr0] at hr
        by_cases hr1 : r = 1
        · rw [if_pos hr1] at hr
          injection hr with hr
          rw [← hr] at hcr
          simp [exC5chap] at hcr
        · rw [if_neg hr1] at hr
          by_cases hr2 : r = 2
          · rw [if_pos hr2] at hr
            injection hr with hr
            rw [← hr] at hcr
            simp [exC5cat] at hcr
          · rw [if_neg hr2] at hr
            cases hr
    rw [hmem0 p pe hp hcp, hmem0 q qe hq hcq]
  · intro i
    by_cases hi0 : i = 0
    · exact ⟨1, iterPar_succ_top _ i 0 (by rw [hi0]; rfl)⟩
    · by_cases hi1 : i = 1
      · refine ⟨2, ?_⟩
        rw [hi1, iterPar_succ_par exC5wit 1 0 1 rfl]
        exact iterPar_succ_top _ 0 0 rfl
      · by_cases hi2 : i = 2
        · exact ⟨1, iterPar_succ_top _ i 0 (by rw [hi2]; rfl)⟩
        · refine ⟨1, iterPar_succ_none _ i 0 ?_⟩
          unfold parentOf
          rw [exC5wit_get, if_neg hi0, if_neg hi1, if_neg hi2]
          rfl

/-- Witness for `C5_amended`: on the three-entry codex, removing anything
stays well-formed, and adding the detached category (id 2, which does not
reach the root top 0) to the chapter (id 1, which does) yields a well-formed
heap. -/
theorem C5_amended_witness :
    (WF exC5wit ∧ parentOf exC5wit 0 = some none ∧ Reaches exC5wit 1 0
        ∧ ¬ Reaches exC5wit 2 0
        ∧ addChild 6 exC5wit 1 2 = some exC5wit')
      ∧ WF (removeChild exC5wit 1 2) ∧ WF exC5wit' := by
  have hcr : ¬ Reaches exC5wit 2 0 := fun hr =>
    (by decide : (0 : Nat) ≠ 2) (detached_reaches exC5wit 2 0 rfl hr)
  have h1 := C5_amended exC5wit exC5wit_wf
  exact ⟨⟨exC5wit_wf, rfl, ⟨1, rfl⟩, hcr, by decide⟩, h1.1 1 2,
    h1.2 6 1 2 0 exC5wit' rfl ⟨1, rfl⟩ hcr (by decide)⟩

end ICD

